import Mathlib

/-!
Verification development for the tool-mapping module of this repository
(src/aury/ai/model/tools.py).

The module has four parts, all modelled here:
* a JSON-Schema normalizer `_normalize_schema` (source lines 39-92),
* a format mapper `to_openai_tools` (lines 95-118),
* a call-name codec: the f-string encoding of line 109 and the regex decoder
  `decode_maybe_mcp` (lines 120-124),
* the inbound-call normalizer `normalize_tool_call` (lines 127-135).

Modelling conventions:
* Python dicts with string keys are association lists `List (String × α)`;
  keys are unique in any list coming from a real Python dict, lookups
  return the first binding and assignments replace the first binding in
  place (Python dicts preserve insertion order).
* JSON-like Python values are the inductive `JsonValue`.
* Python `TypeError` (raised by `result["type"] not in valid_types` when the
  stored value is unhashable, i.e. a list or a dict) is modelled with
  `Except NormErr`; recursion is fuel-indexed and `NormErr.outOfFuel` is a
  distinct marker that provably never occurs at the fuel used by the
  public definition.
* Python strings are Lean `String`s; character-level reasoning for the
  regex goes through `String.data`.
-/

/-- Python `d.get(key)` on a dict modelled as an association list: the first
binding for the key, if any. -/
def getKey {α : Type} : List (String × α) → String → Option α
  | [], _ => none
  | (k, v) :: rest, key => if k = key then some v else getKey rest key

/-- Python `d[key] = v`: replace the first binding in place (keeping its
position) when the key exists, append a new binding otherwise. -/
def setKey {α : Type} : List (String × α) → String → α → List (String × α)
  | [], key, v => [(key, v)]
  | (k, w) :: rest, key, v =>
      if k = key then (key, v) :: rest else (k, w) :: setKey rest key v

/-- Python `key in d`. -/
def hasKey {α : Type} (l : List (String × α)) (key : String) : Bool :=
  (getKey l key).isSome

/-- Python `d.update(other)`: assign every binding of `other`, in order, on
top of `d`. -/
def updateObj {α : Type} : List (String × α) → List (String × α) → List (String × α)
  | item, [] => item
  | item, (k, v) :: rest => updateObj (setKey item k v) rest

/-- JSON-like Python values (the `Any` of the dict annotations in the
source): strings, numbers, booleans, None, lists and dicts. -/
inductive JsonValue where
  | str (s : String)
  | num (n : Int)
  | bool (b : Bool)
  | null
  | arr (elems : List JsonValue)
  | obj (fields : List (String × JsonValue))

/-- A Python dict with string keys and JSON-like values. -/
abbrev Obj := List (String × JsonValue)

/-- Errors of the normalizer: `typeErr` models the Python `TypeError` raised
by the set-membership test on an unhashable value; `outOfFuel` marks fuel
exhaustion of the fuel-indexed recursion (never reached at the fuel used by
`_normalize_schema`). -/
inductive NormErr where
  | typeErr
  | outOfFuel
deriving DecidableEq

/-- Source line 55: the seven JSON Schema 2020-12 type names. -/
def validTypes : List String :=
  ["string", "number", "integer", "boolean", "object", "array", "null"]

/-- Python `result.get("type") == t` for a string `t`: true exactly when the
stored value is the string `t` (equality between a string and any
non-string Python value is `False`). -/
def isTypeVal (result : Obj) (t : String) : Bool :=
  match getKey result "type" with
  | some (.str s) => s = t
  | _ => false

/-- Source lines 57-70: ensure the `type` field exists and is valid.
If `type` is absent, infer `object` when `properties` or
`additionalProperties` is present, `array` when `items` is present, leave
untouched when `enum` is present, else default to `"string"`.  If `type` is
present, `result["type"] not in valid_types` hashes the stored value:
a list or dict raises `TypeError` (modelled as `.error .typeErr`); any other
non-member (non-string values, unknown strings) is coerced to `"string"`. -/
def typeStep (result : Obj) : Except NormErr Obj :=
  match getKey result "type" with
  | none =>
      if hasKey result "properties" || hasKey result "additionalProperties" then
        .ok (setKey result "type" (.str "object"))
      else if hasKey result "items" then
        .ok (setKey result "type" (.str "array"))
      else if hasKey result "enum" then
        .ok result
      else
        .ok (setKey result "type" (.str "string"))
  | some tv =>
      match tv with
      | .str t =>
          if t ∈ validTypes then .ok result
          else .ok (setKey result "type" (.str "string"))
      | .arr _ => .error .typeErr
      | .obj _ => .error .typeErr
      | _ => .ok (setKey result "type" (.str "string"))

/-- Source lines 80-82: the dict comprehension normalizing every value of the
`properties` dict in iteration order, propagating an exception from any
element. -/
def mapPropsM (rec : JsonValue → Except NormErr JsonValue) :
    Obj → Except NormErr Obj
  | [] => .ok []
  | (k, v) :: rest => do
      let nv ← rec v
      let nrest ← mapPropsM rec rest
      .ok ((k, nv) :: nrest)

/-- Source lines 74-75: `if "properties" not in result: result["properties"] = \x7b\x7d`. -/
def ensureProps (result : Obj) : Obj :=
  if hasKey result "properties" then result
  else setKey result "properties" (.obj [])

/-- Source lines 76-77: `if "required" not in result: result["required"] = []`. -/
def ensureReq (result : Obj) : Obj :=
  if hasKey result "required" then result
  else setKey result "required" (.arr [])

/-- Source lines 72-82: when the resolved type is `object`, ensure
`properties` and `required` exist and normalize every value of `properties`
when that field holds a dict. -/
def objStep (rec : JsonValue → Except NormErr JsonValue) (result : Obj) :
    Except NormErr Obj :=
  if isTypeVal result "object" then
    match getKey (ensureReq (ensureProps result)) "properties" with
    | some (.obj props) => do
        let nprops ← mapPropsM rec props
        .ok (setKey (ensureReq (ensureProps result)) "properties" (.obj nprops))
    | _ => .ok (ensureReq (ensureProps result))
  else .ok result

/-- Source lines 84-86: when the resolved type is `array` and `items` is
present, normalize it. -/
def arrayStep (rec : JsonValue → Except NormErr JsonValue) (result : Obj) :
    Except NormErr Obj :=
  if isTypeVal result "array" then
    match getKey result "items" with
    | some it => do
        let nit ← rec it
        .ok (setKey result "items" nit)
    | none => .ok result
  else .ok result

/-- Source lines 88-90: when `additionalProperties` holds a dict, normalize
it. -/
def apStep (rec : JsonValue → Except NormErr JsonValue) (result : Obj) :
    Except NormErr Obj :=
  match getKey result "additionalProperties" with
  | some (.obj ap) => do
      let nap ← rec (.obj ap)
      .ok (setKey result "additionalProperties" nap)
  | _ => .ok result

/-- Fuel-indexed body of `_normalize_schema` (source lines 39-92).  A
non-dict input is returned unchanged (line 48-49); a dict is copied
(line 51, a no-op in this value-level model) and pushed through the four
steps in source order. -/
def normFuel : Nat → JsonValue → Except NormErr JsonValue
  | _, .str s => .ok (.str s)
  | _, .num n => .ok (.num n)
  | _, .bool b => .ok (.bool b)
  | _, .null => .ok .null
  | _, .arr es => .ok (.arr es)
  | 0, .obj _ => .error .outOfFuel
  | n + 1, .obj fields => do
      let r1 ← typeStep fields
      let r2 ← objStep (fun w => normFuel n w) r1
      let r3 ← arrayStep (fun w => normFuel n w) r2
      let r4 ← apStep (fun w => normFuel n w) r3
      .ok (.obj r4)

mutual
/-- Dict-nesting depth of a value: the recursion of `_normalize_schema` only
descends through dict fields, so this bounds its recursion depth. -/
def depthO : JsonValue → Nat
  | .obj fields => 1 + depthFields fields
  | _ => 0

/-- Largest dict-nesting depth among the values of an association list. -/
def depthFields : List (String × JsonValue) → Nat
  | [] => 0
  | (_, v) :: rest => max (depthO v) (depthFields rest)
end

/-- The normalizer `_normalize_schema` (source lines 39-92), run with enough
fuel for its input. -/
def _normalize_schema (v : JsonValue) : Except NormErr JsonValue :=
  normFuel (depthO v) v

/-! ## Call name codec (source lines 109, 120-124)

The pattern is `^mcp::(.+?)::(.+)$`, applied with `re.match` (anchored at the
start).  Python regex semantics modelled exactly:
* `.` matches any character except a newline;
* `(.+?)` is non-greedy: the engine tries the shortest first capture and
  extends it one character at a time while the rest of the pattern fails;
* `$` matches at the end of the string or just before a newline that is the
  last character.
-/

/-- Matching of the tail `(.+)$` against the remaining characters: succeeds
on a non-empty newline-free run, optionally followed by one final newline
(which `$` skips and the capture excludes). -/
def tailMatch (r : List Char) : Option (List Char) :=
  if r.getLast? = some '\n' then
    let b := r.dropLast
    if b ≠ [] ∧ b.all (· ≠ '\n') then some b else none
  else
    if r ≠ [] ∧ r.all (· ≠ '\n') then some r else none

/-- The backtracking search for `(.+?)::(.+)$` over the characters following
`mcp::`: the first capture `acc ++ [c] ++ ...` grows one character at a time
(never across a newline); at each length, if the next two characters are
`::` and the tail matches, that split wins. -/
def scanA (acc : List Char) : List Char → Option (List Char × List Char)
  | [] => none
  | c :: rest =>
      if c = '\n' then none
      else
        if rest.take 2 = [':', ':'] then
          match tailMatch (rest.drop 2) with
          | some b => some (acc ++ [c], b)
          | none => scanA (acc ++ [c]) rest
        else scanA (acc ++ [c]) rest

/-- Source lines 120-124: `decode_maybe_mcp` matches `^mcp::(.+?)::(.+)$`;
on a match it returns `(some serverId, toolName)`, otherwise
`(none, name)` with the input unchanged. -/
def decode_maybe_mcp (name : String) : Option String × String :=
  if name.data.take 5 = ['m', 'c', 'p', ':', ':'] then
    match scanA [] (name.data.drop 5) with
    | some (a, b) => (some ⟨a⟩, ⟨b⟩)
    | none => (none, name)
  else (none, name)

/-- The synthetic-name encoding of source line 109:
the f-string `mcp::{server_id}::{name}` (braces shown verbatim; it is plain
string concatenation). -/
def encode_mcp (server_id name : String) : String :=
  "mcp::" ++ server_id ++ "::" ++ name

/-! ## Data model (source lines 8-35) -/

/-- Source lines 8-11: the closed `ToolKind` enumeration. -/
inductive ToolKind where
  | function
  | mcp
  | builtin
deriving DecidableEq

/-- Source lines 13-17. -/
structure FunctionToolSpec where
  name : String
  description : Option String := none
  parameters : Obj := []
  strict : Bool := true

/-- Source lines 19-24. -/
structure MCPToolSpec where
  server_id : String
  name : String
  description : Option String := none
  input_schema : Obj := []
  result_schema : Option Obj := none

/-- Source lines 26-28. -/
structure BuiltinToolSpec where
  type : String
  config : Obj := []

/-- Source lines 30-35: the frozen tagged record; each variant payload is
optional and only the one matching `kind` should be populated. -/
structure ToolSpec where
  kind : ToolKind
  function : Option FunctionToolSpec := none
  mcp : Option MCPToolSpec := none
  builtin : Option BuiltinToolSpec := none

/-! ## Format mapper (source lines 95-118) -/

/-- One iteration of the loop of `to_openai_tools` (source lines 97-117):
the declaration emitted for one tool, `some none` when the tool is skipped,
`.error` when schema normalization raises.  The `elif` chain tests
`t.kind == <kind> and t.<payload>` in source order; a pydantic model is
always truthy and `None` is falsy, so each guard is a kind test plus
payload presence. -/
def toolEntry (supports_mcp_native : Bool) (t : ToolSpec) :
    Except NormErr (Option JsonValue) :=
  if t.kind = ToolKind.function then
    match t.function with
    | some f => do
        let p ← _normalize_schema (.obj f.parameters)
        .ok (some (.obj [("type", .str "function"),
          ("function", .obj [("name", .str f.name),
            ("description", .str (f.description.getD "")),
            ("parameters", p)])]))
    | none => .ok none
  else if t.kind = ToolKind.mcp then
    match t.mcp with
    | some m =>
        if supports_mcp_native then do
          let p ← _normalize_schema (.obj m.input_schema)
          .ok (some (.obj [("type", .str "mcp"),
            ("server", .str m.server_id),
            ("name", .str m.name),
            ("parameters", p)]))
        else do
          let p ← _normalize_schema (.obj m.input_schema)
          .ok (some (.obj [("type", .str "function"),
            ("function", .obj [("name", .str (encode_mcp m.server_id m.name)),
              ("description", .str ((m.description.getD "") ++
                " [MCP server=" ++ m.server_id ++ "]")),
              ("parameters", p)])]))
    | none => .ok none
  else
    match t.builtin with
    | some b => .ok (some (.obj (updateObj [("type", .str b.type)] b.config)))
    | none => .ok none

/-- Source lines 95-118: `to_openai_tools` maps the tools in input order,
appending at most one declaration per tool; an exception raised while
mapping any tool aborts the whole call. -/
def to_openai_tools (tools : List ToolSpec) (supports_mcp_native : Bool) :
    Except NormErr (List JsonValue) :=
  match tools with
  | [] => .ok []
  | t :: rest => do
      let e ← toolEntry supports_mcp_native t
      let out ← to_openai_tools rest supports_mcp_native
      match e with
      | some d => .ok (d :: out)
      | none => .ok out

/-! ## Inbound call normalization (source lines 127-135) -/

/-- Modelled from the spec: the `ToolCall` record imported from `.types`
(a module not present in the repository sample).  Spec section 3: `id`
(defaults to the empty string), `name` (server encoding stripped),
`arguments_json` (raw serialized arguments payload, opaque to this layer;
nullable here so the value Python passes through can be represented),
`mcp_server_id` (present only for decoded remote calls, otherwise
absent/null). -/
structure ToolCall where
  id : String
  name : String
  arguments_json : Option String
  mcp_server_id : Option String

/-- Python truthiness of a JSON-like value: `None`, `""`, `0`, `False`, `[]`
and the empty dict are falsy, everything else truthy. -/
def jsonTruthy : JsonValue → Bool
  | .str s => s ≠ ""
  | .num n => n ≠ 0
  | .bool b => b
  | .null => false
  | .arr es => !es.isEmpty
  | .obj fs => !fs.isEmpty

/-- Python truthiness of the decoded server id (`None` or a string). -/
def truthyOpt : Option String → Bool
  | none => false
  | some s => s ≠ ""

/-- Source line 131: `raw.get("id") or ""` turns any falsy id (missing key,
`None`, empty string, zero, ...) into `""`; a truthy non-string would fail
`ToolCall` validation in the spec-modelled record, modelled as `none`. -/
def idField (raw : Obj) : Option String :=
  match getKey raw "id" with
  | none => some ""
  | some v =>
      if jsonTruthy v then
        match v with
        | .str s => some s
        | _ => none
      else some ""

/-- Source line 133: `raw.get("arguments","\x7b\x7d")` substitutes the
literal only for a missing key; a present `None` passes through as `None`;
a present non-string, non-`None` value would fail `ToolCall` validation in
the spec-modelled record, modelled as `none`. -/
def argsField (raw : Obj) : Option (Option String) :=
  match getKey raw "arguments" with
  | none => some (some "\x7b\x7d")
  | some .null => some none
  | some (.str s) => some (some s)
  | some _ => none

/-- Source lines 127-135: `normalize_tool_call` builds a `ToolCall` from a
raw record.  `raw.get("name","")` must be a string for `re.match`
(a non-string raises, modelled as `none`). -/
def normalize_tool_call (raw : Obj) : Option ToolCall :=
  match (getKey raw "name").getD (.str "") with
  | .str nm =>
      let sv := decode_maybe_mcp nm
      match idField raw with
      | none => none
      | some idv =>
          match argsField raw with
          | none => none
          | some argv =>
              some { id := idv,
                     name := if truthyOpt sv.1 then sv.2 else nm,
                     arguments_json := argv,
                     mcp_server_id := sv.1 }
  | _ => none

/-! ## Operational heap model of the normalizer (for the frame property)

`_normalize_schema` is re-embedded operationally to make mutation visible:
dicts live in a heap of cells addressed by allocation order, and every
Python statement that mutates a dict (`result["k"] = v`) becomes an explicit
store.  The source allocates `result = dict(schema)` (line 51), the empty
dict literal of line 75, and the dict built by the comprehension of lines
80-82; every store targets the fresh `result` cell.  Lists are kept inline
(the source never mutates a list).  The frame claim is that cells existing
before the call are never written. -/

/-- Heap values: like `JsonValue` but a dict is a reference into the heap. -/
inductive HVal where
  | str (s : String)
  | num (n : Int)
  | bool (b : Bool)
  | null
  | arr (elems : List HVal)
  | ref (a : Nat)

/-- Contents of one dict cell. -/
abbrev HObj := List (String × HVal)

/-- A heap of dict cells, addressed by position. -/
structure Heap where
  cells : List HObj

/-- Read the cell at an address (dangling addresses read as empty). -/
def Heap.getCell (h : Heap) (a : Nat) : HObj := (h.cells[a]?).getD []

/-- Allocate a fresh cell, returning the new heap and its address. -/
def Heap.alloc (h : Heap) (o : HObj) : Heap × Nat :=
  (⟨h.cells ++ [o]⟩, h.cells.length)

/-- Overwrite the cell at an address. -/
def Heap.setCell (h : Heap) (a : Nat) (o : HObj) : Heap :=
  ⟨h.cells.set a o⟩

/-- Python `result.get("type") == t` read from a heap cell. -/
def isTypeValH (o : HObj) (t : String) : Bool :=
  match getKey o "type" with
  | some (.str s) => s = t
  | _ => false

/-- Source lines 57-70 as heap operations on the `result` cell `r`. -/
def typeStepH (h : Heap) (r : Nat) : Heap × Except NormErr Unit :=
  let o := h.getCell r
  match getKey o "type" with
  | none =>
      if hasKey o "properties" || hasKey o "additionalProperties" then
        (h.setCell r (setKey o "type" (.str "object")), .ok ())
      else if hasKey o "items" then
        (h.setCell r (setKey o "type" (.str "array")), .ok ())
      else if hasKey o "enum" then
        (h, .ok ())
      else
        (h.setCell r (setKey o "type" (.str "string")), .ok ())
  | some tv =>
      match tv with
      | .str t =>
          if t ∈ validTypes then (h, .ok ())
          else (h.setCell r (setKey o "type" (.str "string")), .ok ())
      | .ref _ => (h, .error .typeErr)
      | .arr _ => (h, .error .typeErr)
      | _ => (h.setCell r (setKey o "type" (.str "string")), .ok ())

/-- Source lines 74-75 as heap operations on cell `r`: the empty dict
literal of line 75 is a fresh allocation whose reference is stored into
`r`. -/
def ensurePropsH (h : Heap) (r : Nat) : Heap :=
  if hasKey (h.getCell r) "properties" then h
  else
    let ale := h.alloc []
    ale.1.setCell r (setKey (ale.1.getCell r) "properties" (.ref ale.2))

/-- Source lines 76-77 as heap operations on cell `r`. -/
def ensureReqH (h : Heap) (r : Nat) : Heap :=
  if hasKey (h.getCell r) "required" then h
  else h.setCell r (setKey (h.getCell r) "required" (.arr []))

/-- Source lines 72-82 as heap operations on the `result` cell `r`:
`pmap` is the dict comprehension applied to the bindings of the
`properties` cell; the dict it builds is a fresh allocation stored into
`r`. -/
def objStepH (pmap : Heap → HObj → Heap × Except NormErr HObj)
    (h : Heap) (r : Nat) : Heap × Except NormErr Unit :=
  if isTypeValH (h.getCell r) "object" then
    let h4 := ensureReqH (ensurePropsH h r) r
    match getKey (h4.getCell r) "properties" with
    | some (.ref p) =>
        let pr := pmap h4 (h4.getCell p)
        match pr.2 with
        | .error e => (pr.1, .error e)
        | .ok nl =>
            let alq := pr.1.alloc nl
            (alq.1.setCell r (setKey (alq.1.getCell r) "properties" (.ref alq.2)),
             .ok ())
    | _ => (h4, .ok ())
  else (h, .ok ())

/-- Source lines 84-86 as heap operations on the `result` cell `r`. -/
def arrayStepH (rec : Heap → HVal → Heap × Except NormErr HVal)
    (h : Heap) (r : Nat) : Heap × Except NormErr Unit :=
  if isTypeValH (h.getCell r) "array" then
    match getKey (h.getCell r) "items" with
    | some it =>
        let ir := rec h it
        match ir.2 with
        | .error e => (ir.1, .error e)
        | .ok nit =>
            (ir.1.setCell r (setKey (ir.1.getCell r) "items" nit), .ok ())
    | none => (h, .ok ())
  else (h, .ok ())

/-- Source lines 88-90 as heap operations on the `result` cell `r`. -/
def apStepH (rec : Heap → HVal → Heap × Except NormErr HVal)
    (h : Heap) (r : Nat) : Heap × Except NormErr Unit :=
  match getKey (h.getCell r) "additionalProperties" with
  | some (.ref ap) =>
      let apr := rec h (.ref ap)
      match apr.2 with
      | .error e => (apr.1, .error e)
      | .ok nap =>
          (apr.1.setCell r (setKey (apr.1.getCell r) "additionalProperties" nap),
           .ok ())
  | _ => (h, .ok ())

/-- The dict comprehension of lines 80-82 as a heap program: normalize the
values with `rec` in iteration order, threading the heap, building the new
binding list. -/
def normPropsH (rec : Heap → HVal → Heap × Except NormErr HVal) :
    Heap → List (String × HVal) → Heap × Except NormErr (List (String × HVal))
  | h, [] => (h, .ok [])
  | h, (k, v) :: rest =>
      let vr := rec h v
      match vr.2 with
      | .error e => (vr.1, .error e)
      | .ok nv =>
          let rr := normPropsH rec vr.1 rest
          match rr.2 with
          | .error e => (rr.1, .error e)
          | .ok nrest => (rr.1, .ok ((k, nv) :: nrest))

/-- Source lines 39-92 as a heap program.  A non-dict value is returned
unchanged; a dict reference is shallow-copied into a fresh cell `r`
(line 51) and all subsequent stores hit `r` (or cells allocated after it);
the four steps run in source order on cell `r`. -/
def normalizeH : Nat → Heap → HVal → Heap × Except NormErr HVal
  | _, h, .str s => (h, .ok (.str s))
  | _, h, .num n => (h, .ok (.num n))
  | _, h, .bool b => (h, .ok (.bool b))
  | _, h, .null => (h, .ok .null)
  | _, h, .arr es => (h, .ok (.arr es))
  | 0, h, .ref _ => (h, .error .outOfFuel)
  | n + 1, h, .ref a =>
      let al := h.alloc (h.getCell a)
      let te := typeStepH al.1 al.2
      match te.2 with
      | .error e => (te.1, .error e)
      | .ok _ =>
        let ob := objStepH (normPropsH (fun hh ww => normalizeH n hh ww)) te.1 al.2
        match ob.2 with
        | .error e => (ob.1, .error e)
        | .ok _ =>
          let arb := arrayStepH (fun hh ww => normalizeH n hh ww) ob.1 al.2
          match arb.2 with
          | .error e => (arb.1, .error e)
          | .ok _ =>
            let apr := apStepH (fun hh ww => normalizeH n hh ww) arb.1 al.2
            match apr.2 with
            | .error e => (apr.1, .error e)
            | .ok _ => (apr.1, .ok (.ref al.2))

/-! ## Basic lemmas about the dict model -/

theorem getKey_setKey_self {α : Type} (l : List (String × α)) (k : String) (v : α) :
    getKey (setKey l k v) k = some v := by
  induction l with
  | nil => simp [getKey, setKey]
  | cons p rest ih =>
      obtain ⟨k', w⟩ := p
      by_cases h : k' = k
      · simp [getKey, setKey, h]
      · simp [getKey, setKey, h, ih]

theorem getKey_setKey_ne {α : Type} (l : List (String × α)) (k k' : String) (v : α)
    (h : k' ≠ k) : getKey (setKey l k v) k' = getKey l k' := by
  induction l with
  | nil =>
      simp only [setKey, getKey]
      rw [if_neg (fun hc => h hc.symm)]
  | cons p rest ih =>
      obtain ⟨k0, w⟩ := p
      by_cases h0 : k0 = k
      · subst h0
        simp only [setKey, if_pos rfl, getKey]
        rw [if_neg (fun hc => h hc.symm), if_neg (fun hc => h hc.symm)]
      · simp only [setKey, if_neg h0, getKey]
        by_cases h1 : k0 = k'
        · rw [if_pos h1, if_pos h1]
        · rw [if_neg h1, if_neg h1, ih]

theorem setKey_getKey_self {α : Type} (l : List (String × α)) (k : String) (v : α)
    (h : getKey l k = some v) : setKey l k v = l := by
  induction l with
  | nil => simp [getKey] at h
  | cons p rest ih =>
      obtain ⟨k0, w⟩ := p
      by_cases h0 : k0 = k
      · subst h0
        simp [getKey] at h
        simp [setKey, h]
      · simp [getKey, h0] at h
        simp [setKey, h0, ih h]

theorem hasKey_setKey_self {α : Type} (l : List (String × α)) (k : String) (v : α) :
    hasKey (setKey l k v) k = true := by
  simp [hasKey, getKey_setKey_self]

theorem hasKey_setKey_ne {α : Type} (l : List (String × α)) (k k' : String) (v : α)
    (h : k' ≠ k) : hasKey (setKey l k v) k' = hasKey l k' := by
  simp [hasKey, getKey_setKey_ne _ _ _ _ h]

theorem getKey_of_hasKey {α : Type} {l : List (String × α)} {k : String}
    (h : hasKey l k = true) : ∃ v, getKey l k = some v := by
  simpa [hasKey, Option.isSome_iff_exists] using h

/-! ## Depth lemmas -/

theorem depthO_le_of_getKey {l : Obj} {k : String} {v : JsonValue}
    (h : getKey l k = some v) : depthO v ≤ depthFields l := by
  induction l with
  | nil => simp [getKey] at h
  | cons p rest ih =>
      obtain ⟨k0, w⟩ := p
      by_cases h0 : k0 = k
      · simp [getKey, h0] at h
        subst h
        simp only [depthFields]
        exact le_max_left _ _
      · simp [getKey, h0] at h
        simp only [depthFields]
        exact le_trans (ih h) (le_max_right _ _)

theorem depthO_le_of_mem {l : Obj} {p : String × JsonValue}
    (h : p ∈ l) : depthO p.2 ≤ depthFields l := by
  induction l with
  | nil => simp at h
  | cons q rest ih =>
      obtain ⟨k0, w⟩ := q
      rcases List.mem_cons.mp h with h | h
      · subst h
        simp only [depthFields]
        exact le_max_left _ _
      · simp only [depthFields]
        exact le_trans (ih h) (le_max_right _ _)

/-! ## Except plumbing -/

theorem ebind_ok {α β : Type} (a : α) (f : α → Except NormErr β) :
    (Except.ok a >>= f) = f a := rfl

theorem ebind_err {α β : Type} (e : NormErr) (f : α → Except NormErr β) :
    ((Except.error e : Except NormErr α) >>= f) = .error e := rfl

/-! ## Shape and transport lemmas for the normalizer steps -/

theorem typeStep_cases {fields r1 : Obj} (h : typeStep fields = .ok r1) :
    r1 = fields ∨ ∃ t, r1 = setKey fields "type" (.str t) := by
  unfold typeStep at h
  cases hg : getKey fields "type" with
  | none =>
      rw [hg] at h
      by_cases h1 : hasKey fields "properties" || hasKey fields "additionalProperties"
      · simp [h1] at h
        exact Or.inr ⟨"object", h.symm⟩
      · simp [h1] at h
        by_cases h2 : hasKey fields "items"
        · simp [h2] at h
          exact Or.inr ⟨"array", h.symm⟩
        · simp [h2] at h
          by_cases h3 : hasKey fields "enum"
          · simp [h3] at h
            exact Or.inl h.symm
          · simp [h3] at h
            exact Or.inr ⟨"string", h.symm⟩
  | some tv =>
      rw [hg] at h
      cases tv with
      | str t =>
          by_cases ht : t ∈ validTypes
          · simp [ht] at h
            exact Or.inl h.symm
          · simp [ht] at h
            exact Or.inr ⟨"string", h.symm⟩
      | arr es => simp at h
      | obj fs => simp at h
      | num n => exact Or.inr ⟨"string", by simp at h; exact h.symm⟩
      | bool b => exact Or.inr ⟨"string", by simp at h; exact h.symm⟩
      | null => exact Or.inr ⟨"string", by simp at h; exact h.symm⟩

theorem typeStep_sub {fields r1 : Obj} (h : typeStep fields = .ok r1)
    (k : String) (hk : k ≠ "type") : getKey r1 k = getKey fields k := by
  rcases typeStep_cases h with h1 | ⟨t, h1⟩
  · rw [h1]
  · rw [h1, getKey_setKey_ne _ _ _ _ hk]

theorem typeStep_type_char {fields r1 : Obj} (h : typeStep fields = .ok r1) :
    (getKey r1 "type" = none ∧ r1 = fields ∧
      hasKey fields "properties" = false ∧
      hasKey fields "additionalProperties" = false ∧
      hasKey fields "items" = false ∧ hasKey fields "enum" = true) ∨
    (∃ t, getKey r1 "type" = some (.str t) ∧ t ∈ validTypes) := by
  unfold typeStep at h
  cases hg : getKey fields "type" with
  | none =>
      rw [hg] at h
      by_cases h1 : hasKey fields "properties" || hasKey fields "additionalProperties"
      · simp [h1] at h
        refine Or.inr ⟨"object", ?_, by decide⟩
        rw [← h, getKey_setKey_self]
      · simp [h1] at h
        by_cases h2 : hasKey fields "items"
        · simp [h2] at h
          refine Or.inr ⟨"array", ?_, by decide⟩
          rw [← h, getKey_setKey_self]
        · simp [h2] at h
          by_cases h3 : hasKey fields "enum"
          · simp [h3] at h
            rw [Bool.or_eq_true, not_or] at h1
            refine Or.inl ⟨?_, h.symm, ?_, ?_, ?_, ?_⟩
            · rw [← h]; exact hg
            · simpa using h1.1
            · simpa using h1.2
            · simpa using h2
            · simpa using h3
          · simp [h3] at h
            refine Or.inr ⟨"string", ?_, by decide⟩
            rw [← h, getKey_setKey_self]
  | some tv =>
      rw [hg] at h
      cases tv with
      | str t =>
          by_cases ht : t ∈ validTypes
          · simp [ht] at h
            refine Or.inr ⟨t, ?_, ht⟩
            rw [← h]; exact hg
          · simp [ht] at h
            refine Or.inr ⟨"string", ?_, by decide⟩
            rw [← h, getKey_setKey_self]
      | arr es => simp at h
      | obj fs => simp at h
      | num n =>
          simp at h
          refine Or.inr ⟨"string", ?_, by decide⟩
          rw [← h, getKey_setKey_self]
      | bool b =>
          simp at h
          refine Or.inr ⟨"string", ?_, by decide⟩
          rw [← h, getKey_setKey_self]
      | null =>
          simp at h
          refine Or.inr ⟨"string", ?_, by decide⟩
          rw [← h, getKey_setKey_self]

theorem getKey_ensureProps_ne (r : Obj) (k : String) (hk : k ≠ "properties") :
    getKey (ensureProps r) k = getKey r k := by
  unfold ensureProps
  by_cases hp : hasKey r "properties"
  · rw [if_pos hp]
  · rw [if_neg hp, getKey_setKey_ne _ _ _ _ hk]

theorem getKey_ensureReq_ne (r : Obj) (k : String) (hk : k ≠ "required") :
    getKey (ensureReq r) k = getKey r k := by
  unfold ensureReq
  by_cases hp : hasKey r "required"
  · rw [if_pos hp]
  · rw [if_neg hp, getKey_setKey_ne _ _ _ _ hk]

theorem hasKey_ensureProps (r : Obj) : hasKey (ensureProps r) "properties" = true := by
  unfold ensureProps
  by_cases hp : hasKey r "properties"
  · rw [if_pos hp]; exact hp
  · rw [if_neg hp]; exact hasKey_setKey_self _ _ _

theorem hasKey_ensureReq (r : Obj) : hasKey (ensureReq r) "required" = true := by
  unfold ensureReq
  by_cases hp : hasKey r "required"
  · rw [if_pos hp]; exact hp
  · rw [if_neg hp]; exact hasKey_setKey_self _ _ _

/-- The `properties` value after both ensure-steps: the original one when
present, the fresh empty dict otherwise. -/
theorem getKey_props_ensured (r : Obj) :
    getKey (ensureReq (ensureProps r)) "properties" =
      (if hasKey r "properties" then getKey r "properties" else some (.obj [])) := by
  rw [getKey_ensureReq_ne _ _ (by decide)]
  unfold ensureProps
  by_cases hp : hasKey r "properties"
  · rw [if_pos hp, if_pos hp]
  · rw [if_neg hp, if_neg hp, getKey_setKey_self]

theorem objStep_sub {rec : JsonValue → Except NormErr JsonValue} {r r' : Obj}
    (h : objStep rec r = .ok r') (k : String)
    (hk1 : k ≠ "properties") (hk2 : k ≠ "required") :
    getKey r' k = getKey r k := by
  unfold objStep at h
  by_cases ht : isTypeVal r "object"
  · rw [if_pos ht] at h
    have htr : getKey (ensureReq (ensureProps r)) k = getKey r k := by
      rw [getKey_ensureReq_ne _ _ hk2, getKey_ensureProps_ne _ _ hk1]
    cases hgp : getKey (ensureReq (ensureProps r)) "properties" with
    | none =>
        rw [hgp] at h
        simp at h
        rw [← h]; exact htr
    | some pv =>
        rw [hgp] at h
        cases pv with
        | obj props =>
            dsimp only at h
            cases hm : mapPropsM rec props with
            | error e => rw [hm, ebind_err] at h; exact absurd h (by simp)
            | ok nprops =>
                rw [hm, ebind_ok] at h
                simp at h
                rw [← h, getKey_setKey_ne _ _ _ _ hk1]
                exact htr
        | str s => simp at h; rw [← h]; exact htr
        | num n => simp at h; rw [← h]; exact htr
        | bool b => simp at h; rw [← h]; exact htr
        | null => simp at h; rw [← h]; exact htr
        | arr es => simp at h; rw [← h]; exact htr
  · rw [if_neg ht] at h
    simp at h
    rw [← h]

theorem arrayStep_sub {rec : JsonValue → Except NormErr JsonValue} {r r' : Obj}
    (h : arrayStep rec r = .ok r') (k : String) (hk : k ≠ "items") :
    getKey r' k = getKey r k := by
  unfold arrayStep at h
  by_cases ht : isTypeVal r "array"
  · rw [if_pos ht] at h
    cases hgi : getKey r "items" with
    | none => rw [hgi] at h; simp at h; rw [← h]
    | some it =>
        rw [hgi] at h
        dsimp only at h
        cases hn : rec it with
        | error e => rw [hn, ebind_err] at h; exact absurd h (by simp)
        | ok nit =>
            rw [hn, ebind_ok] at h
            simp at h
            rw [← h, getKey_setKey_ne _ _ _ _ hk]
  · rw [if_neg ht] at h
    simp at h
    rw [← h]

theorem apStep_sub {rec : JsonValue → Except NormErr JsonValue} {r r' : Obj}
    (h : apStep rec r = .ok r') (k : String) (hk : k ≠ "additionalProperties") :
    getKey r' k = getKey r k := by
  unfold apStep at h
  cases hga : getKey r "additionalProperties" with
  | none => rw [hga] at h; simp at h; rw [← h]
  | some av =>
      rw [hga] at h
      cases av with
      | obj ap =>
          dsimp only at h
          cases hn : rec (.obj ap) with
          | error e => rw [hn, ebind_err] at h; exact absurd h (by simp)
          | ok nap =>
              rw [hn, ebind_ok] at h
              simp at h
              rw [← h, getKey_setKey_ne _ _ _ _ hk]
      | str s => simp at h; rw [← h]
      | num n => simp at h; rw [← h]
      | bool b => simp at h; rw [← h]
      | null => simp at h; rw [← h]
      | arr es => simp at h; rw [← h]

/-! ## Congruence lemmas: the steps only apply the recursive function to
values of the input dict, so two recursive functions agreeing there give
equal steps -/

theorem mapPropsM_congr {rec1 rec2 : JsonValue → Except NormErr JsonValue}
    {l : Obj} (h : ∀ p ∈ l, rec1 p.2 = rec2 p.2) :
    mapPropsM rec1 l = mapPropsM rec2 l := by
  induction l with
  | nil => rfl
  | cons p rest ih =>
      obtain ⟨k, v⟩ := p
      have h1 : rec1 v = rec2 v := h (k, v) (List.mem_cons_self _ _)
      have h2 : mapPropsM rec1 rest = mapPropsM rec2 rest :=
        ih (fun q hq => h q (List.mem_cons_of_mem _ hq))
      simp only [mapPropsM]
      rw [h1, h2]

theorem mapPropsM_mem {rec : JsonValue → Except NormErr JsonValue}
    {l l' : Obj} (h : mapPropsM rec l = .ok l') :
    ∀ q ∈ l', ∃ v, rec v = .ok q.2 := by
  induction l generalizing l' with
  | nil =>
      simp only [mapPropsM] at h
      cases h
      intro q hq
      simp at hq
  | cons p rest ih =>
      obtain ⟨k, v⟩ := p
      simp only [mapPropsM] at h
      cases hv : rec v with
      | error e => rw [hv, ebind_err] at h; exact absurd h (by simp)
      | ok nv =>
          rw [hv, ebind_ok] at h
          cases hr : mapPropsM rec rest with
          | error e => rw [hr, ebind_err] at h; exact absurd h (by simp)
          | ok nrest =>
              rw [hr, ebind_ok] at h
              simp at h
              intro q hq
              rw [← h] at hq
              rcases List.mem_cons.mp hq with hq | hq
              · subst hq
                exact ⟨v, hv⟩
              · exact ih hr q hq

theorem mapPropsM_fix {rec : JsonValue → Except NormErr JsonValue}
    {l : Obj} (h : ∀ q ∈ l, rec q.2 = .ok q.2) : mapPropsM rec l = .ok l := by
  induction l with
  | nil => rfl
  | cons p rest ih =>
      obtain ⟨k, v⟩ := p
      have h1 : rec v = .ok v := h (k, v) (List.mem_cons_self _ _)
      have h2 : mapPropsM rec rest = .ok rest :=
        ih (fun q hq => h q (List.mem_cons_of_mem _ hq))
      simp only [mapPropsM]
      rw [h1, ebind_ok, h2, ebind_ok]

theorem objStep_congr {rec1 rec2 : JsonValue → Except NormErr JsonValue} {r : Obj}
    (hsites : ∀ props p, getKey r "properties" = some (.obj props) → p ∈ props →
      rec1 p.2 = rec2 p.2) :
    objStep rec1 r = objStep rec2 r := by
  unfold objStep
  by_cases ht : isTypeVal r "object"
  · rw [if_pos ht, if_pos ht, getKey_props_ensured]
    by_cases hp : hasKey r "properties"
    · rw [if_pos hp]
      cases hgp : getKey r "properties" with
      | none => rfl
      | some pv =>
          cases pv with
          | obj props =>
              dsimp only
              rw [mapPropsM_congr (fun p hp2 => hsites props p hgp hp2)]
          | str s => rfl
          | num n => rfl
          | bool b => rfl
          | null => rfl
          | arr es => rfl
    · rw [if_neg hp]
      rfl
  · rw [if_neg ht, if_neg ht]

theorem arrayStep_congr {rec1 rec2 : JsonValue → Except NormErr JsonValue} {r : Obj}
    (hsites : ∀ v, getKey r "items" = some v → rec1 v = rec2 v) :
    arrayStep rec1 r = arrayStep rec2 r := by
  unfold arrayStep
  by_cases ht : isTypeVal r "array"
  · rw [if_pos ht, if_pos ht]
    cases hgi : getKey r "items" with
    | none => rfl
    | some it =>
        dsimp only
        rw [hsites it hgi]
  · rw [if_neg ht, if_neg ht]

theorem apStep_congr {rec1 rec2 : JsonValue → Except NormErr JsonValue} {r : Obj}
    (hsites : ∀ ap, getKey r "additionalProperties" = some (.obj ap) →
      rec1 (.obj ap) = rec2 (.obj ap)) :
    apStep rec1 r = apStep rec2 r := by
  unfold apStep
  cases hga : getKey r "additionalProperties" with
  | none => rfl
  | some av =>
      cases av with
      | obj ap =>
          dsimp only
          rw [hsites ap hga]
      | str s => rfl
      | num n => rfl
      | bool b => rfl
      | null => rfl
      | arr es => rfl

/-! ## Unfolding equations for the fuel-indexed normalizer -/

theorem normFuel_str (n : Nat) (s : String) : normFuel n (.str s) = .ok (.str s) := by
  cases n <;> rfl

theorem normFuel_num (n : Nat) (k : Int) : normFuel n (.num k) = .ok (.num k) := by
  cases n <;> rfl

theorem normFuel_bool (n : Nat) (b : Bool) : normFuel n (.bool b) = .ok (.bool b) := by
  cases n <;> rfl

theorem normFuel_null (n : Nat) : normFuel n .null = .ok .null := by
  cases n <;> rfl

theorem normFuel_arr (n : Nat) (es : List JsonValue) :
    normFuel n (.arr es) = .ok (.arr es) := by
  cases n <;> rfl

theorem normFuel_succ_obj (n : Nat) (fields : Obj) :
    normFuel (n + 1) (.obj fields) =
      (typeStep fields >>= fun r1 =>
       objStep (fun w => normFuel n w) r1 >>= fun r2 =>
       arrayStep (fun w => normFuel n w) r2 >>= fun r3 =>
       apStep (fun w => normFuel n w) r3 >>= fun r4 =>
       .ok (.obj r4)) := rfl

/-- Fuel independence: any two fuels at least the dict-nesting depth of the
input give the same result. -/
theorem normFuel_stable : ∀ n m v, depthO v ≤ n → depthO v ≤ m →
    normFuel n v = normFuel m v := by
  intro n
  induction n using Nat.strong_induction_on with
  | _ n IH =>
    intro m v hn hm
    cases v with
    | str s => rw [normFuel_str, normFuel_str]
    | num k => rw [normFuel_num, normFuel_num]
    | bool b => rw [normFuel_bool, normFuel_bool]
    | null => rw [normFuel_null, normFuel_null]
    | arr es => rw [normFuel_arr, normFuel_arr]
    | obj fields =>
        have hd : 1 + depthFields fields ≤ n := by simpa [depthO] using hn
        have hd2 : 1 + depthFields fields ≤ m := by simpa [depthO] using hm
        obtain ⟨n', rfl⟩ : ∃ n', n = n' + 1 := ⟨n - 1, by omega⟩
        obtain ⟨m', rfl⟩ : ∃ m', m = m' + 1 := ⟨m - 1, by omega⟩
        rw [normFuel_succ_obj, normFuel_succ_obj]
        cases hT : typeStep fields with
        | error e => rw [ebind_err, ebind_err]
        | ok r1 =>
            simp only [ebind_ok]
            have hrec : ∀ v', depthO v' ≤ depthFields fields →
                normFuel n' v' = normFuel m' v' := by
              intro v' hv'
              exact IH n' (by omega) m' v' (by omega) (by omega)
            have hO : objStep (fun w => normFuel n' w) r1 =
                objStep (fun w => normFuel m' w) r1 := by
              apply objStep_congr
              intro props p hprops hmem
              apply hrec
              have h1 : getKey fields "properties" = some (.obj props) := by
                rw [← typeStep_sub hT "properties" (by decide)]; exact hprops
              have h2 : depthO (.obj props) ≤ depthFields fields :=
                depthO_le_of_getKey h1
              have h3 : depthO p.2 ≤ depthFields props := depthO_le_of_mem hmem
              have h4 : depthO (.obj props) = 1 + depthFields props := by
                simp [depthO]
              omega
            rw [hO]
            cases hOr : objStep (fun w => normFuel m' w) r1 with
            | error e => rw [ebind_err, ebind_err]
            | ok r2 =>
                simp only [ebind_ok]
                have hA : arrayStep (fun w => normFuel n' w) r2 =
                    arrayStep (fun w => normFuel m' w) r2 := by
                  apply arrayStep_congr
                  intro v' hv'
                  apply hrec
                  have h1 : getKey fields "items" = some v' := by
                    rw [← typeStep_sub hT "items" (by decide),
                        ← objStep_sub hOr "items" (by decide) (by decide)]
                    exact hv'
                  exact depthO_le_of_getKey h1
                rw [hA]
                cases hAr : arrayStep (fun w => normFuel m' w) r2 with
                | error e => rw [ebind_err, ebind_err]
                | ok r3 =>
                    simp only [ebind_ok]
                    have hP : apStep (fun w => normFuel n' w) r3 =
                        apStep (fun w => normFuel m' w) r3 := by
                      apply apStep_congr
                      intro ap hap
                      apply hrec
                      have h1 : getKey fields "additionalProperties" =
                          some (.obj ap) := by
                        rw [← typeStep_sub hT "additionalProperties" (by decide),
                            ← objStep_sub hOr "additionalProperties" (by decide)
                              (by decide),
                            ← arrayStep_sub hAr "additionalProperties" (by decide)]
                        exact hap
                      exact depthO_le_of_getKey h1
                    rw [hP]

/-! ## Pointwise unfolding lemmas for the steps -/

theorem hasKey_of_getKey {α : Type} {l : List (String × α)} {k : String} {v : α}
    (h : getKey l k = some v) : hasKey l k = true := by
  simp [hasKey, h]

theorem isTypeVal_none {r : Obj} (h : getKey r "type" = none) (t : String) :
    isTypeVal r t = false := by
  simp [isTypeVal, h]

theorem isTypeVal_str {r : Obj} {s : String} (h : getKey r "type" = some (.str s))
    (t : String) : isTypeVal r t = decide (s = t) := by
  simp [isTypeVal, h]

theorem ensureProps_of_hasKey {r : Obj} (h : hasKey r "properties" = true) :
    ensureProps r = r := by
  unfold ensureProps
  rw [if_pos h]

theorem ensureReq_of_hasKey {r : Obj} (h : hasKey r "required" = true) :
    ensureReq r = r := by
  unfold ensureReq
  rw [if_pos h]

theorem objStep_not_object {rec : JsonValue → Except NormErr JsonValue} {r : Obj}
    (h : isTypeVal r "object" = false) : objStep rec r = .ok r := by
  unfold objStep
  rw [if_neg (by simp [h])]

theorem objStep_eq_props {rec : JsonValue → Except NormErr JsonValue} {r : Obj}
    {props : Obj} (ht : isTypeVal r "object" = true)
    (hp : getKey (ensureReq (ensureProps r)) "properties" = some (.obj props)) :
    objStep rec r = (mapPropsM rec props >>= fun nprops =>
      .ok (setKey (ensureReq (ensureProps r)) "properties" (.obj nprops))) := by
  unfold objStep
  rw [if_pos ht, hp]

theorem objStep_skip_props {rec : JsonValue → Except NormErr JsonValue} {r : Obj}
    {pv : JsonValue} (ht : isTypeVal r "object" = true)
    (hp : getKey (ensureReq (ensureProps r)) "properties" = some pv)
    (hnv : ∀ props, pv ≠ .obj props) :
    objStep rec r = .ok (ensureReq (ensureProps r)) := by
  unfold objStep
  rw [if_pos ht, hp]
  cases pv with
  | obj props => exact absurd rfl (hnv props)
  | str s => rfl
  | num n => rfl
  | bool b => rfl
  | null => rfl
  | arr es => rfl

theorem arrayStep_not_array {rec : JsonValue → Except NormErr JsonValue} {r : Obj}
    (h : isTypeVal r "array" = false) : arrayStep rec r = .ok r := by
  unfold arrayStep
  rw [if_neg (by simp [h])]

theorem arrayStep_eq_items {rec : JsonValue → Except NormErr JsonValue} {r : Obj}
    {it : JsonValue} (ht : isTypeVal r "array" = true)
    (hi : getKey r "items" = some it) :
    arrayStep rec r = (rec it >>= fun nit => .ok (setKey r "items" nit)) := by
  unfold arrayStep
  rw [if_pos ht, hi]

theorem arrayStep_no_items {rec : JsonValue → Except NormErr JsonValue} {r : Obj}
    (ht : isTypeVal r "array" = true) (hi : getKey r "items" = none) :
    arrayStep rec r = .ok r := by
  unfold arrayStep
  rw [if_pos ht, hi]

theorem apStep_eq_obj {rec : JsonValue → Except NormErr JsonValue} {r : Obj}
    {apf : Obj} (ha : getKey r "additionalProperties" = some (.obj apf)) :
    apStep rec r = (rec (.obj apf) >>= fun nap =>
      .ok (setKey r "additionalProperties" nap)) := by
  unfold apStep
  rw [ha]

theorem apStep_none {rec : JsonValue → Except NormErr JsonValue} {r : Obj}
    (ha : getKey r "additionalProperties" = none) : apStep rec r = .ok r := by
  unfold apStep
  rw [ha]

theorem apStep_nonobj {rec : JsonValue → Except NormErr JsonValue} {r : Obj}
    {av : JsonValue} (ha : getKey r "additionalProperties" = some av)
    (hnv : ∀ apf, av ≠ .obj apf) : apStep rec r = .ok r := by
  unfold apStep
  rw [ha]
  cases av with
  | obj apf => exact absurd rfl (hnv apf)
  | str s => rfl
  | num n => rfl
  | bool b => rfl
  | null => rfl
  | arr es => rfl

/-- The fuel-indexed normalizer maps a dict to a dict. -/
theorem normFuel_obj_shape {n : Nat} {fs : Obj} {w : JsonValue}
    (h : normFuel n (.obj fs) = .ok w) : ∃ wf : Obj, w = .obj wf := by
  cases n with
  | zero => exact absurd h (by simp [normFuel])
  | succ n' =>
      rw [normFuel_succ_obj] at h
      cases hT : typeStep fs with
      | error e => rw [hT, ebind_err] at h; exact absurd h (by simp)
      | ok r1 =>
          simp only [hT, ebind_ok] at h
          cases hO : objStep (fun v => normFuel n' v) r1 with
          | error e => rw [hO, ebind_err] at h; exact absurd h (by simp)
          | ok r2 =>
              simp only [hO, ebind_ok] at h
              cases hA : arrayStep (fun v => normFuel n' v) r2 with
              | error e => rw [hA, ebind_err] at h; exact absurd h (by simp)
              | ok r3 =>
                  simp only [hA, ebind_ok] at h
                  cases hP : apStep (fun v => normFuel n' v) r3 with
                  | error e => rw [hP, ebind_err] at h; exact absurd h (by simp)
                  | ok r4 =>
                      simp only [hP, ebind_ok] at h
                      simp at h
                      exact ⟨r4, h.symm⟩

theorem getKey_none_of_hasKey_false {α : Type} {l : List (String × α)} {k : String}
    (h : hasKey l k = false) : getKey l k = none := by
  cases hg : getKey l k with
  | none => rfl
  | some v => unfold hasKey at h; rw [hg] at h; simp at h

/-- Refolding the body: a dict all four steps leave unchanged is a fixed
point of the normalizer. -/
theorem normFuel_refold {F : Nat} {r4 : Obj}
    (h1 : typeStep r4 = .ok r4)
    (h2 : objStep (fun w => normFuel F w) r4 = .ok r4)
    (h3 : arrayStep (fun w => normFuel F w) r4 = .ok r4)
    (h4 : apStep (fun w => normFuel F w) r4 = .ok r4) :
    normFuel (F + 1) (.obj r4) = .ok (.obj r4) := by
  rw [normFuel_succ_obj]
  simp only [h1, ebind_ok, h2, h3, h4]

/-- Outputs of the normalizer are fixed points: renormalizing (with the fuel
the public definition would pick) returns the output unchanged. -/
theorem normFuel_fix : ∀ n v r, normFuel n v = .ok r →
    normFuel (depthO r) r = .ok r := by
  intro n
  induction n with
  | zero =>
      intro v r h
      cases v with
      | str s => rw [normFuel_str] at h; cases h; rw [normFuel_str]
      | num k => rw [normFuel_num] at h; cases h; rw [normFuel_num]
      | bool b => rw [normFuel_bool] at h; cases h; rw [normFuel_bool]
      | null => rw [normFuel_null] at h; cases h; rw [normFuel_null]
      | arr es => rw [normFuel_arr] at h; cases h; rw [normFuel_arr]
      | obj fields => exact absurd h (by simp [normFuel])
  | succ n IH =>
      intro v r h
      cases v with
      | str s => rw [normFuel_str] at h; cases h; rw [normFuel_str]
      | num k => rw [normFuel_num] at h; cases h; rw [normFuel_num]
      | bool b => rw [normFuel_bool] at h; cases h; rw [normFuel_bool]
      | null => rw [normFuel_null] at h; cases h; rw [normFuel_null]
      | arr es => rw [normFuel_arr] at h; cases h; rw [normFuel_arr]
      | obj fields =>
        rw [normFuel_succ_obj] at h
        cases hT : typeStep fields with
        | error e => rw [hT, ebind_err] at h; exact absurd h (by simp)
        | ok r1 =>
        simp only [hT, ebind_ok] at h
        cases hO : objStep (fun w => normFuel n w) r1 with
        | error e => rw [hO, ebind_err] at h; exact absurd h (by simp)
        | ok r2 =>
        simp only [hO, ebind_ok] at h
        cases hA : arrayStep (fun w => normFuel n w) r2 with
        | error e => rw [hA, ebind_err] at h; exact absurd h (by simp)
        | ok r3 =>
        simp only [hA, ebind_ok] at h
        cases hP : apStep (fun w => normFuel n w) r3 with
        | error e => rw [hP, ebind_err] at h; exact absurd h (by simp)
        | ok r4 =>
        simp only [hP, ebind_ok] at h
        cases h
        have hdr : depthO (JsonValue.obj r4) = depthFields r4 + 1 := by
          simp [depthO, Nat.add_comm]
        rw [hdr]
        -- renormalizing an already-normalized stored value is the identity
        have hreF : ∀ w nw, normFuel n w = .ok nw → depthO nw ≤ depthFields r4 →
            normFuel (depthFields r4) nw = .ok nw := by
          intro w nw hw hd
          rw [normFuel_stable (depthFields r4) (depthO nw) nw hd le_rfl]
          exact IH w nw hw
        -- the additionalProperties step is a fixed point on r4
        have hapfix : apStep (fun w => normFuel (depthFields r4) w) r4 = .ok r4 := by
          cases hga : getKey r3 "additionalProperties" with
          | none =>
              have hskip := @apStep_none (fun w => normFuel n w) r3 hga
              rw [hP] at hskip
              cases hskip
              exact apStep_none hga
          | some av =>
              by_cases hobj : ∃ apf, av = JsonValue.obj apf
              · obtain ⟨apf, rfl⟩ := hobj
                rw [apStep_eq_obj hga] at hP
                cases hw : normFuel n (.obj apf) with
                | error e => rw [hw, ebind_err] at hP; exact absurd hP (by simp)
                | ok nap =>
                    rw [hw, ebind_ok] at hP
                    obtain ⟨napf, rfl⟩ := normFuel_obj_shape hw
                    cases hP
                    have hg4 : getKey
                        (setKey r3 "additionalProperties" (JsonValue.obj napf))
                        "additionalProperties" = some (.obj napf) :=
                      getKey_setKey_self _ _ _
                    rw [apStep_eq_obj hg4]
                    rw [hreF _ _ hw (depthO_le_of_getKey hg4), ebind_ok,
                        setKey_getKey_self _ _ _ hg4]
              · have hnv : ∀ apf, av ≠ JsonValue.obj apf :=
                  fun apf hc => hobj ⟨apf, hc⟩
                have hskip := @apStep_nonobj (fun w => normFuel n w) r3 av hga hnv
                rw [hP] at hskip
                cases hskip
                exact apStep_nonobj hga hnv
        rcases typeStep_type_char hT with
          ⟨hTn, hfld, hpr, hap, hit, hen⟩ | ⟨t, hTt, htv⟩
        · -- enum path: no type was resolved and every later step is a no-op
          subst hfld
          have h12 : r2 = r1 := by
            have hno := @objStep_not_object (fun w => normFuel n w) r1
              (isTypeVal_none hTn "object")
            rw [hO] at hno
            exact Except.ok.inj hno
          have h23 : r3 = r1 := by
            have hno := @arrayStep_not_array (fun w => normFuel n w) r2
              (by rw [h12]; exact isTypeVal_none hTn "array")
            rw [hA] at hno
            exact (Except.ok.inj hno).trans h12
          have h34 : r4 = r1 := by
            have hno := @apStep_none (fun w => normFuel n w) r3
              (by rw [h23]; exact getKey_none_of_hasKey_false hap)
            rw [hP] at hno
            exact (Except.ok.inj hno).trans h23
          rw [h34]
          exact normFuel_refold hT
            (objStep_not_object (isTypeVal_none hTn "object"))
            (arrayStep_not_array (isTypeVal_none hTn "array"))
            (apStep_none (getKey_none_of_hasKey_false hap))
        · -- a valid type string was resolved
          have hT2 : getKey r2 "type" = some (.str t) := by
            rw [objStep_sub hO "type" (by decide) (by decide)]
            exact hTt
          have hT3 : getKey r3 "type" = some (.str t) := by
            rw [arrayStep_sub hA "type" (by decide)]
            exact hT2
          have hT4 : getKey r4 "type" = some (.str t) := by
            rw [apStep_sub hP "type" (by decide)]
            exact hT3
          have htfix : typeStep r4 = .ok r4 := by
            unfold typeStep
            rw [hT4]
            dsimp only
            rw [if_pos htv]
          by_cases hto : t = "object"
          · -- object: the properties machinery ran; replay it on r4
            subst hto
            have hty1 : isTypeVal r1 "object" = true := by
              rw [isTypeVal_str hTt]
              decide
            have hty4 : isTypeVal r4 "object" = true := by
              rw [isTypeVal_str hT4]
              decide
            have hafix : arrayStep (fun w => normFuel (depthFields r4) w) r4 =
                .ok r4 := by
              apply arrayStep_not_array
              rw [isTypeVal_str hT4]
              decide
            cases hgp : getKey (ensureReq (ensureProps r1)) "properties" with
            | none =>
                exfalso
                have hhk : (getKey (ensureReq (ensureProps r1)) "properties").isSome
                    = true := by
                  rw [getKey_ensureReq_ne _ _ (by decide)]
                  exact hasKey_ensureProps r1
                rw [hgp] at hhk
                simp at hhk
            | some pv =>
              by_cases hpo : ∃ props, pv = JsonValue.obj props
              · obtain ⟨props, rfl⟩ := hpo
                rw [objStep_eq_props hty1 hgp] at hO
                cases hm : mapPropsM (fun w => normFuel n w) props with
                | error e => rw [hm, ebind_err] at hO; exact absurd hO (by simp)
                | ok nprops =>
                    rw [hm, ebind_ok] at hO
                    cases hO
                    have hgp2 : getKey
                        (setKey (ensureReq (ensureProps r1)) "properties"
                          (JsonValue.obj nprops)) "properties" =
                        some (.obj nprops) := getKey_setKey_self _ _ _
                    have hgp4 : getKey r4 "properties" = some (.obj nprops) := by
                      rw [apStep_sub hP "properties" (by decide),
                          arrayStep_sub hA "properties" (by decide)]
                      exact hgp2
                    have hrq4 : hasKey r4 "required" = true := by
                      have hstep : getKey r4 "required" =
                          getKey (ensureReq (ensureProps r1)) "required" := by
                        rw [apStep_sub hP "required" (by decide),
                            arrayStep_sub hA "required" (by decide),
                            getKey_setKey_ne _ _ _ _ (by decide)]
                      unfold hasKey
                      rw [hstep]
                      exact hasKey_ensureReq _
                    have hens4 : ensureReq (ensureProps r4) = r4 := by
                      rw [ensureProps_of_hasKey (hasKey_of_getKey hgp4),
                          ensureReq_of_hasKey hrq4]
                    have hmfix : mapPropsM (fun w => normFuel (depthFields r4) w)
                        nprops = .ok nprops := by
                      apply mapPropsM_fix
                      intro q hq
                      obtain ⟨v0, hv0⟩ := mapPropsM_mem hm q hq
                      apply hreF v0 q.2 hv0
                      have d1 : depthO q.2 ≤ depthFields nprops :=
                        depthO_le_of_mem hq
                      have d2 : depthO (JsonValue.obj nprops) ≤ depthFields r4 :=
                        depthO_le_of_getKey hgp4
                      have d3 : depthO (JsonValue.obj nprops) =
                          1 + depthFields nprops := by simp [depthO]
                      omega
                    have hofix : objStep (fun w => normFuel (depthFields r4) w) r4 =
                        .ok r4 := by
                      rw [objStep_eq_props hty4 (by rw [hens4]; exact hgp4)]
                      rw [hmfix, ebind_ok, hens4, setKey_getKey_self _ _ _ hgp4]
                    exact normFuel_refold htfix hofix hafix hapfix
              · have hnv : ∀ props, pv ≠ JsonValue.obj props :=
                  fun props hc => hpo ⟨props, hc⟩
                have hr2 : r2 = ensureReq (ensureProps r1) := by
                  have hsk := @objStep_skip_props (fun w => normFuel n w) r1 pv
                    hty1 hgp hnv
                  rw [hO] at hsk
                  cases hsk
                  rfl
                subst hr2
                have hgp4 : getKey r4 "properties" = some pv := by
                  rw [apStep_sub hP "properties" (by decide),
                      arrayStep_sub hA "properties" (by decide)]
                  exact hgp
                have hrq4 : hasKey r4 "required" = true := by
                  have hstep : getKey r4 "required" =
                      getKey (ensureReq (ensureProps r1)) "required" := by
                    rw [apStep_sub hP "required" (by decide),
                        arrayStep_sub hA "required" (by decide)]
                  unfold hasKey
                  rw [hstep]
                  exact hasKey_ensureReq _
                have hens4 : ensureReq (ensureProps r4) = r4 := by
                  rw [ensureProps_of_hasKey (hasKey_of_getKey hgp4),
                      ensureReq_of_hasKey hrq4]
                have hty4 : isTypeVal r4 "object" = true := by
                  rw [isTypeVal_str hT4]
                  decide
                have hofix : objStep (fun w => normFuel (depthFields r4) w) r4 =
                    .ok r4 := by
                  rw [objStep_skip_props hty4 (by rw [hens4]; exact hgp4) hnv,
                      hens4]
                exact normFuel_refold htfix hofix hafix hapfix
          · by_cases hta : t = "array"
            · -- array: the items machinery ran; replay it on r4
              subst hta
              have hty2 : isTypeVal r2 "array" = true := by
                rw [isTypeVal_str hT2]
                decide
              have hty4 : isTypeVal r4 "array" = true := by
                rw [isTypeVal_str hT4]
                decide
              have hofix : objStep (fun w => normFuel (depthFields r4) w) r4 =
                  .ok r4 := by
                apply objStep_not_object
                rw [isTypeVal_str hT4]
                decide
              cases hgi : getKey r2 "items" with
              | none =>
                  have h32 : r3 = r2 := by
                    have hsk := @arrayStep_no_items (fun w => normFuel n w) r2
                      hty2 hgi
                    rw [hA] at hsk
                    exact Except.ok.inj hsk
                  have hgi4 : getKey r4 "items" = none := by
                    rw [apStep_sub hP "items" (by decide), h32]
                    exact hgi
                  exact normFuel_refold htfix hofix
                    (arrayStep_no_items hty4 hgi4) hapfix
              | some it =>
                  rw [arrayStep_eq_items hty2 hgi] at hA
                  cases hw : normFuel n it with
                  | error e => rw [hw, ebind_err] at hA; exact absurd hA (by simp)
                  | ok nit =>
                      rw [hw, ebind_ok] at hA
                      cases hA
                      have hgi4 : getKey r4 "items" = some nit := by
                        rw [apStep_sub hP "items" (by decide)]
                        exact getKey_setKey_self _ _ _
                      have hafix : arrayStep
                          (fun w => normFuel (depthFields r4) w) r4 = .ok r4 := by
                        rw [arrayStep_eq_items hty4 hgi4,
                            hreF _ _ hw (depthO_le_of_getKey hgi4), ebind_ok,
                            setKey_getKey_self _ _ _ hgi4]
                      exact normFuel_refold htfix hofix hafix hapfix
            · -- neither object nor array: both middle steps are no-ops
              exact normFuel_refold htfix
                (objStep_not_object (by
                  rw [isTypeVal_str hT4]
                  exact decide_eq_false hto))
                (arrayStep_not_array (by
                  rw [isTypeVal_str hT4]
                  exact decide_eq_false hta))
                hapfix

/-! ## Codec lemmas -/

/-- Success-case idempotence of the normalizer, at the public definition. -/
theorem _normalize_schema_fix {s r : JsonValue}
    (h : _normalize_schema s = .ok r) : _normalize_schema r = .ok r :=
  normFuel_fix (depthO s) s r h

/-- Whether the two-character sequence `::` occurs in a character list. -/
def hasDD : List Char → Bool
  | c1 :: c2 :: rest => (c1 = ':' && c2 = ':') || hasDD (c2 :: rest)
  | _ => false

theorem tailMatch_of {b : List Char} (h1 : b ≠ [])
    (h2 : ∀ c ∈ b, c ≠ '\n') : tailMatch b = some b := by
  unfold tailMatch
  have hlast : b.getLast? ≠ some '\n' := by
    cases hl : b.getLast? with
    | none => simp
    | some c =>
        have hcm : c ∈ b := by
          obtain ⟨hne, hce⟩ :=
            @List.mem_getLast?_eq_getLast _ b c (Option.mem_def.mpr hl)
          rw [hce]
          exact List.getLast_mem hne
        simp [h2 c hcm]
  rw [if_neg hlast, if_pos]
  exact ⟨h1, by simpa [List.all_eq_true] using h2⟩

/-- One unfolding step of the scan. -/
theorem scanA_cons (acc : List Char) (c : Char) (rest : List Char) :
    scanA acc (c :: rest) =
      if c = '\n' then none
      else if rest.take 2 = [':', ':'] then
        match tailMatch (rest.drop 2) with
        | some b => some (acc ++ [c], b)
        | none => scanA (acc ++ [c]) rest
      else scanA (acc ++ [c]) rest := rfl

theorem scanA_append : ∀ (a : List Char) (acc b : List Char),
    a ≠ [] → (∀ c ∈ a, c ≠ '\n') → hasDD a = false → a.getLast? ≠ some ':' →
    b ≠ [] → (∀ c ∈ b, c ≠ '\n') →
    scanA acc (a ++ (':' :: ':' :: b)) = some (acc ++ a, b) := by
  intro a
  induction a with
  | nil => intro acc b h1; exact absurd rfl h1
  | cons c arest ih =>
      intro acc b _ hnl hdd hlast hb hbnl
      cases arest with
      | nil =>
          simp only [List.cons_append, List.nil_append]
          rw [scanA_cons, if_neg (hnl c (by simp))]
          rw [if_pos (by rfl)]
          have hd : (':' :: ':' :: b).drop 2 = b := rfl
          rw [hd, tailMatch_of hb hbnl]
      | cons c2 arest2 =>
          have hc2 : hasDD (c2 :: arest2) = false := by
            have hdd' : ((c = ':' && c2 = ':') || hasDD (c2 :: arest2)) = false := by
              simpa [hasDD] using hdd
            exact (Bool.or_eq_false_iff.mp hdd').2
          simp only [List.cons_append]
          rw [scanA_cons, if_neg (hnl c (by simp))]
          have htk : (c2 :: (arest2 ++ ':' :: ':' :: b)).take 2 ≠ [':', ':'] := by
            cases arest2 with
            | nil =>
                simp only [List.nil_append, List.take]
                intro hc
                have hc2e : c2 = ':' := by
                  have := List.cons.inj hc
                  exact this.1
                apply hlast
                simp [List.getLast?, hc2e]
            | cons c3 arest3 =>
                simp only [List.cons_append, List.take]
                intro hc
                have hc23 : c2 = ':' ∧ c3 = ':' := by
                  have h1 := List.cons.inj hc
                  have h2 := List.cons.inj h1.2
                  exact ⟨h1.1, h2.1⟩
                have hT : hasDD (c2 :: c3 :: arest3) = true := by
                  simp [hasDD, hc23.1, hc23.2]
                rw [hT] at hc2
                exact Bool.noConfusion hc2
          rw [if_neg htk]
          have hres := ih (acc ++ [c]) b (by simp)
            (fun d hd => hnl d (by simp [hd]))
            hc2
            (by
              have heq : (c :: c2 :: arest2).getLast? = (c2 :: arest2).getLast? :=
                List.getLast?_cons_cons
              rw [← heq]
              exact hlast)
            hb hbnl
          simp only [List.cons_append] at hres
          rw [hres]
          simp

/-- The first capture of a successful scan strictly extends the
accumulator. -/
theorem scanA_longer : ∀ (l acc a b : List Char),
    scanA acc l = some (a, b) → acc.length < a.length := by
  intro l
  induction l with
  | nil => intro acc a b h; simp [scanA] at h
  | cons c rest ih =>
      intro acc a b h
      rw [scanA_cons] at h
      by_cases hc : c = '\n'
      · rw [if_pos hc] at h; exact absurd h (by simp)
      · rw [if_neg hc] at h
        by_cases htk : rest.take 2 = [':', ':']
        · rw [if_pos htk] at h
          cases htm : tailMatch (rest.drop 2) with
          | some b0 =>
              rw [htm] at h
              simp only [Option.some.injEq, Prod.mk.injEq] at h
              obtain ⟨ha, _⟩ := h
              rw [← ha]
              simp
          | none =>
              rw [htm] at h
              have := ih (acc ++ [c]) a b h
              simp at this
              omega
        · rw [if_neg htk] at h
          have := ih (acc ++ [c]) a b h
          simp at this
          omega

theorem string_data_append (a b : String) : (a ++ b).data = a.data ++ b.data := by
  cases a; cases b; rfl

theorem encode_mcp_data (sid nm : String) :
    (encode_mcp sid nm).data =
      'm' :: 'c' :: 'p' :: ':' :: ':' :: (sid.data ++ (':' :: ':' :: nm.data)) := by
  unfold encode_mcp
  rw [string_data_append, string_data_append, string_data_append]
  show ['m', 'c', 'p', ':', ':'] ++ sid.data ++ [':', ':'] ++ nm.data = _
  simp

/-- Round trip of the codec under the conditions that make the non-greedy
first-delimiter parse recover the original pair. -/
theorem decode_encode_mcp (sid nm : String)
    (h1 : sid.data ≠ []) (h2 : nm.data ≠ [])
    (h3 : ∀ c ∈ sid.data, c ≠ '\n') (h4 : ∀ c ∈ nm.data, c ≠ '\n')
    (h5 : hasDD sid.data = false)
    (h7 : sid.data.getLast? ≠ some ':') :
    decode_maybe_mcp (encode_mcp sid nm) = (some sid, nm) := by
  unfold decode_maybe_mcp
  rw [encode_mcp_data]
  rw [if_pos (by rfl)]
  have hdrop : ('m' :: 'c' :: 'p' :: ':' :: ':' ::
      (sid.data ++ (':' :: ':' :: nm.data))).drop 5 =
      sid.data ++ (':' :: ':' :: nm.data) := rfl
  rw [hdrop, scanA_append sid.data [] nm.data h1 h3 h5 h7 h2 h4]
  rfl

/-- A decoded server id is never the empty string (the first capture is
`.+?`). -/
theorem decode_server_ne {nm s t : String}
    (h : decode_maybe_mcp nm = (some s, t)) : s ≠ "" := by
  unfold decode_maybe_mcp at h
  by_cases hp : nm.data.take 5 = ['m', 'c', 'p', ':', ':']
  · rw [if_pos hp] at h
    cases hs : scanA [] (nm.data.drop 5) with
    | none => rw [hs] at h; simp at h
    | some ab =>
        obtain ⟨a, b⟩ := ab
        rw [hs] at h
        dsimp only at h
        have hlen := scanA_longer _ [] a b hs
        simp at hlen
        rw [Prod.mk.injEq] at h
        have hsa : (⟨a⟩ : String) = s := Option.some.inj h.1
        intro hc
        rw [hc] at hsa
        have ha : a = [] := congrArg String.data hsa
        rw [ha] at hlen
        simp at hlen
  · rw [if_neg hp] at h
    simp at h

/-! ## Frame lemmas for the operational heap model -/

/-- The first heap extends the second: lengths grow and existing cells keep
their contents. -/
def heapLe (h h' : Heap) : Prop :=
  h.cells.length ≤ h'.cells.length ∧
  ∀ a, a < h.cells.length → h'.cells[a]? = h.cells[a]?

theorem heapLe_refl (h : Heap) : heapLe h h :=
  ⟨le_refl _, fun _ _ => rfl⟩

theorem heapLe_trans {h1 h2 h3 : Heap} (a : heapLe h1 h2) (b : heapLe h2 h3) :
    heapLe h1 h3 := by
  refine ⟨le_trans a.1 b.1, fun i hi => ?_⟩
  rw [b.2 i (lt_of_lt_of_le hi a.1), a.2 i hi]

theorem heapLe_alloc (h : Heap) (o : HObj) : heapLe h (h.alloc o).1 := by
  refine ⟨by simp [Heap.alloc], fun i hi => ?_⟩
  simp only [Heap.alloc]
  exact List.getElem?_append_left hi

theorem heapLe_setCell {h0 h : Heap} (hle : heapLe h0 h) {r : Nat} (o : HObj)
    (hr : h0.cells.length ≤ r) : heapLe h0 (h.setCell r o) := by
  refine ⟨by simp [Heap.setCell]; exact hle.1, fun i hi => ?_⟩
  have hir : i ≠ r := by omega
  simp only [Heap.setCell]
  rw [List.getElem?_set_ne (Ne.symm hir)]
  exact hle.2 i hi

theorem alloc_addr_ge {h0 h : Heap} (hle : heapLe h0 h) (o : HObj) :
    h0.cells.length ≤ (h.alloc o).2 := by
  simpa [Heap.alloc] using hle.1

theorem typeStepH_heapLe {h0 h : Heap} {r : Nat} (hle : heapLe h0 h)
    (hr : h0.cells.length ≤ r) : heapLe h0 (typeStepH h r).1 := by
  unfold typeStepH
  dsimp only
  split
  · split
    · exact heapLe_setCell hle _ hr
    · split
      · exact heapLe_setCell hle _ hr
      · split
        · exact hle
        · exact heapLe_setCell hle _ hr
  · split
    · split
      · exact hle
      · exact heapLe_setCell hle _ hr
    · exact hle
    · exact hle
    · exact heapLe_setCell hle _ hr

theorem ensurePropsH_heapLe {h0 h : Heap} {r : Nat} (hle : heapLe h0 h)
    (hr : h0.cells.length ≤ r) : heapLe h0 (ensurePropsH h r) := by
  unfold ensurePropsH
  dsimp only
  split
  · exact hle
  · exact heapLe_setCell (heapLe_trans hle (heapLe_alloc h [])) _ hr

theorem ensureReqH_heapLe {h0 h : Heap} {r : Nat} (hle : heapLe h0 h)
    (hr : h0.cells.length ≤ r) : heapLe h0 (ensureReqH h r) := by
  unfold ensureReqH
  split
  · exact hle
  · exact heapLe_setCell hle _ hr

theorem objStepH_heapLe {pmap : Heap → HObj → Heap × Except NormErr HObj}
    (hpmap : ∀ h1 l, heapLe h1 (pmap h1 l).1)
    {h0 h : Heap} {r : Nat} (hle : heapLe h0 h) (hr : h0.cells.length ≤ r) :
    heapLe h0 (objStepH pmap h r).1 := by
  unfold objStepH
  dsimp only
  have h4le : heapLe h0 (ensureReqH (ensurePropsH h r) r) :=
    ensureReqH_heapLe (ensurePropsH_heapLe hle hr) hr
  split
  · split
    · split
      · exact heapLe_trans h4le (hpmap _ _)
      · exact heapLe_setCell
          (heapLe_trans (heapLe_trans h4le (hpmap _ _)) (heapLe_alloc _ _)) _ hr
    · exact h4le
  · exact hle

theorem arrayStepH_heapLe {rec : Heap → HVal → Heap × Except NormErr HVal}
    (hrec : ∀ h1 v, heapLe h1 (rec h1 v).1)
    {h0 h : Heap} {r : Nat} (hle : heapLe h0 h) (hr : h0.cells.length ≤ r) :
    heapLe h0 (arrayStepH rec h r).1 := by
  unfold arrayStepH
  dsimp only
  split
  · split
    · split
      · exact heapLe_trans hle (hrec _ _)
      · exact heapLe_setCell (heapLe_trans hle (hrec _ _)) _ hr
    · exact hle
  · exact hle

theorem apStepH_heapLe {rec : Heap → HVal → Heap × Except NormErr HVal}
    (hrec : ∀ h1 v, heapLe h1 (rec h1 v).1)
    {h0 h : Heap} {r : Nat} (hle : heapLe h0 h) (hr : h0.cells.length ≤ r) :
    heapLe h0 (apStepH rec h r).1 := by
  unfold apStepH
  dsimp only
  split
  · split
    · exact heapLe_trans hle (hrec _ _)
    · exact heapLe_setCell (heapLe_trans hle (hrec _ _)) _ hr
  · exact hle



/-- One unfolding step of the heap normalizer on a dict reference. -/
theorem normalizeH_succ_ref (n : Nat) (h : Heap) (a : Nat) :
    normalizeH (n + 1) h (.ref a) =
      (let al := h.alloc (h.getCell a)
       let te := typeStepH al.1 al.2
       match te.2 with
       | .error e => (te.1, .error e)
       | .ok _ =>
         let ob := objStepH (normPropsH (fun hh ww => normalizeH n hh ww)) te.1 al.2
         match ob.2 with
         | .error e => (ob.1, .error e)
         | .ok _ =>
           let arb := arrayStepH (fun hh ww => normalizeH n hh ww) ob.1 al.2
           match arb.2 with
           | .error e => (arb.1, .error e)
           | .ok _ =>
             let apr := apStepH (fun hh ww => normalizeH n hh ww) arb.1 al.2
             match apr.2 with
             | .error e => (apr.1, .error e)
             | .ok _ => (apr.1, .ok (.ref al.2))) := rfl

theorem normPropsH_heapLe {rec : Heap → HVal → Heap × Except NormErr HVal}
    (hrec : ∀ h v, heapLe h (rec h v).1) :
    ∀ l h, heapLe h (normPropsH rec h l).1 := by
  intro l
  induction l with
  | nil => intro h; exact heapLe_refl h
  | cons p rest ih =>
      intro h
      obtain ⟨k, v⟩ := p
      show heapLe h (normPropsH rec h ((k, v) :: rest)).1
      simp only [normPropsH]
      split
      · exact hrec h v
      · split
        · exact heapLe_trans (hrec h v) (ih _)
        · exact heapLe_trans (hrec h v) (ih _)

set_option maxHeartbeats 1600000 in
/-- Frame property: a run of the heap normalizer only allocates fresh cells
and writes to cells allocated during the call, so every cell of the initial
heap is preserved. -/
theorem normalizeH_heapLe : ∀ (n : Nat) (h : Heap) (v : HVal),
    heapLe h (normalizeH n h v).1 := by
  intro n
  induction n with
  | zero =>
      intro h v
      cases v <;> exact heapLe_refl h
  | succ n IH =>
      intro h v
      cases v with
      | str s => exact heapLe_refl h
      | num k => exact heapLe_refl h
      | bool b => exact heapLe_refl h
      | null => exact heapLe_refl h
      | arr es => exact heapLe_refl h
      | ref a =>
          simp only [normalizeH_succ_ref]
          have hal : heapLe h (h.alloc (h.getCell a)).1 := heapLe_alloc h _
          have hr : h.cells.length ≤ (h.alloc (h.getCell a)).2 := le_refl _
          have hte : heapLe h
              (typeStepH (h.alloc (h.getCell a)).1 (h.alloc (h.getCell a)).2).1 :=
            typeStepH_heapLe hal hr
          split
          · exact hte
          · have hob : heapLe h
                (objStepH (normPropsH (fun hh ww => normalizeH n hh ww))
                  (typeStepH (h.alloc (h.getCell a)).1
                    (h.alloc (h.getCell a)).2).1
                  (h.alloc (h.getCell a)).2).1 :=
              objStepH_heapLe
                (fun h1 l => normPropsH_heapLe (fun h2 w => IH h2 w) l h1)
                hte hr
            split
            · exact hob
            · have harr : heapLe h
                  (arrayStepH (fun hh ww => normalizeH n hh ww)
                    (objStepH (normPropsH (fun hh ww => normalizeH n hh ww))
                      (typeStepH (h.alloc (h.getCell a)).1
                        (h.alloc (h.getCell a)).2).1
                      (h.alloc (h.getCell a)).2).1
                    (h.alloc (h.getCell a)).2).1 :=
                arrayStepH_heapLe (fun h1 w => IH h1 w) hob hr
              split
              · exact harr
              · have hap : heapLe h
                    (apStepH (fun hh ww => normalizeH n hh ww)
                      (arrayStepH (fun hh ww => normalizeH n hh ww)
                        (objStepH (normPropsH (fun hh ww => normalizeH n hh ww))
                          (typeStepH (h.alloc (h.getCell a)).1
                            (h.alloc (h.getCell a)).2).1
                          (h.alloc (h.getCell a)).2).1
                        (h.alloc (h.getCell a)).2).1
                      (h.alloc (h.getCell a)).2).1 :=
                  apStepH_heapLe (fun h1 w => IH h1 w) harr hr
                split
                · exact hap
                · exact hap

/-! ## Claims -/

theorem str_eq_empty_of_data {s : String} (h : s.data = []) : s = "" := by
  cases s
  subst h
  rfl

/-- C1 (counterexample): the claim fails as stated.  With `serverId = ""`
(which does not contain `::`) the encoded name `mcp::::x` does not match the
pattern at all, because both captures need at least one character; with
`serverId = "a:"` the first `::` of `mcp::a:::b` is found one character
early, decoding to `("a", ":b")`; with a newline in `name`, `(.+)$` drops
the trailing newline, decoding `mcp::a::b\n` to `("a", "b")`. -/
theorem claim_C1_counterexample :
    decode_maybe_mcp (encode_mcp "" "x") ≠ (some "", "x") ∧
    decode_maybe_mcp (encode_mcp "a:" "b") ≠ (some "a:", "b") ∧
    decode_maybe_mcp (encode_mcp "a" "b\n") ≠ (some "a", "b\n") := by
  refine ⟨?_, ?_, ?_⟩ <;> decide

/-- C1 (amended): for every `serverId` and `name`, both non-empty, neither
containing the substring `::` nor a newline character, and `serverId` not
ending in `:`, decoding the encoded synthetic name recovers the pair
exactly: `decode_maybe_mcp (encode serverId name) = (some serverId, name)`,
where the encoding is `mcp::` ++ serverId ++ `::` ++ name and the decoder
matches `^mcp::(.+?)::(.+)$`. -/
theorem claim_C1 (serverId name : String)
    (h1 : serverId ≠ "") (h2 : name ≠ "")
    (h3 : hasDD serverId.data = false) (h4 : hasDD name.data = false)
    (h5 : '\n' ∉ serverId.data) (h6 : '\n' ∉ name.data)
    (h7 : serverId.data.getLast? ≠ some ':') :
    decode_maybe_mcp (encode_mcp serverId name) = (some serverId, name) := by
  apply decode_encode_mcp
  · intro hc; exact h1 (str_eq_empty_of_data hc)
  · intro hc; exact h2 (str_eq_empty_of_data hc)
  · intro c hc hceq; rw [hceq] at hc; exact h5 hc
  · intro c hc hceq; rw [hceq] at hc; exact h6 hc
  · exact h3
  · exact h7

theorem claim_C1_witness :
    decode_maybe_mcp (encode_mcp "srv1" "lookup") = (some "srv1", "lookup") :=
  claim_C1 "srv1" "lookup" (by decide) (by decide) (by decide) (by decide)
    (by decide) (by decide) (by decide)

/-- C2: the schema normalizer is idempotent for every input value (mapping
or not): composing `_normalize_schema` with itself gives `_normalize_schema`
(a raised `TypeError`, modelled as `.error`, propagates on both sides). -/
theorem claim_C2 (s : JsonValue) :
    (_normalize_schema s).bind _normalize_schema = _normalize_schema s := by
  cases hs : _normalize_schema s with
  | error e => rfl
  | ok r =>
      show _normalize_schema r = Except.ok r
      exact _normalize_schema_fix hs

theorem getKey_updateObj_of_none {α : Type} :
    ∀ (cfg item : List (String × α)) (k : String), getKey cfg k = none →
    getKey (updateObj item cfg) k = getKey item k := by
  intro cfg
  induction cfg with
  | nil => intro item k _; rfl
  | cons p rest ih =>
      intro item k h
      obtain ⟨k0, v⟩ := p
      by_cases h0 : k0 = k
      · simp [getKey, h0] at h
      · simp only [getKey, if_neg h0] at h
        simp only [updateObj]
        rw [ih _ _ h, getKey_setKey_ne _ _ _ _ (fun hc => h0 hc.symm)]

/-- The builtin tool spec of the C3 counterexample: its `config` carries its
own `type` key. -/
def c3cexSpec : ToolSpec :=
  { kind := ToolKind.builtin,
    builtin := some { type := "search", config := [("type", .str "web")] } }

/-- C3 (counterexample): the claim fails as stated.  `item.update(config)`
(source line 116) replaces existing keys, `type` included, so a config with
a `type` key overrides the discriminator: the emitted declaration's `type`
is `"web"`, not the builtin's `type` field `"search"`. -/
theorem claim_C3_counterexample :
    to_openai_tools [c3cexSpec] false = .ok [.obj [("type", .str "web")]] ∧
    ("web" : String) ≠ "search" := ⟨rfl, by decide⟩

/-- C3 (amended): for every builtin tool spec, the mapper emits the mapping
`( type: <builtin type> )` with the builtin's config shallow-merged on
top, where config keys override earlier fields, the `type` discriminator
included; the emitted declaration's `type` equals the builtin's `type`
field whenever the config has no `type` key of its own. -/
theorem claim_C3 (t : ToolSpec) (b : BuiltinToolSpec) (supports : Bool)
    (hk : t.kind = ToolKind.builtin) (hb : t.builtin = some b) :
    toolEntry supports t =
      .ok (some (.obj (updateObj [("type", .str b.type)] b.config))) ∧
    (getKey b.config "type" = none →
      getKey (updateObj [("type", .str b.type)] b.config) "type" =
        some (.str b.type)) := by
  constructor
  · simp [toolEntry, hk, hb]
  · intro hc
    rw [getKey_updateObj_of_none _ _ _ hc]
    simp [getKey]

def c3wSpec : ToolSpec :=
  { kind := ToolKind.builtin,
    builtin := some { type := "search", config := [("depth", .num 2)] } }

theorem claim_C3_witness :
    toolEntry false c3wSpec =
      .ok (some (.obj (updateObj [("type", JsonValue.str "search")]
        [("depth", JsonValue.num 2)]))) ∧
    (getKey [("depth", JsonValue.num 2)] "type" = none →
      getKey (updateObj [("type", JsonValue.str "search")]
        [("depth", JsonValue.num 2)]) "type" =
        some (JsonValue.str "search")) :=
  claim_C3 c3wSpec { type := "search", config := [("depth", .num 2)] } false
    rfl rfl

/-- C4: for every mcp-kind tool spec with populated mcp payload, when
native remote support is off the mapper emits one function declaration
whose name is exactly `mcp::` ++ server_id ++ `::` ++ name, whose
description is the original description (empty string if absent) with
`" [MCP server=" ++ server_id ++ "]"` appended, and whose parameters are
the normalized input_schema. -/
theorem claim_C4 (t : ToolSpec) (m : MCPToolSpec) (p : JsonValue)
    (hk : t.kind = ToolKind.mcp) (hm : t.mcp = some m)
    (hp : _normalize_schema (.obj m.input_schema) = .ok p) :
    to_openai_tools [t] false =
      .ok [.obj [("type", .str "function"),
        ("function", .obj [
          ("name", .str ("mcp::" ++ m.server_id ++ "::" ++ m.name)),
          ("description", .str ((m.description.getD "") ++
            " [MCP server=" ++ m.server_id ++ "]")),
          ("parameters", p)])]] := by
  simp [to_openai_tools, toolEntry, hk, hm, hp, encode_mcp, ebind_ok]

def c4wSpec : ToolSpec :=
  { kind := ToolKind.mcp, mcp := some { server_id := "srv1", name := "lookup" } }

theorem claim_C4_witness :
    to_openai_tools [c4wSpec] false =
      .ok [.obj [("type", JsonValue.str "function"),
        ("function", JsonValue.obj [
          ("name", JsonValue.str ("mcp::" ++ "srv1" ++ "::" ++ "lookup")),
          ("description", JsonValue.str (((none : Option String).getD "") ++
            " [MCP server=" ++ "srv1" ++ "]")),
          ("parameters", JsonValue.obj [("type", JsonValue.str "string")])])]] :=
  claim_C4 c4wSpec { server_id := "srv1", name := "lookup" }
    (.obj [("type", JsonValue.str "string")]) rfl rfl rfl

/-- A tool spec whose variant payload is missing for its declared kind. -/
def badPayload (t : ToolSpec) : Prop :=
  (t.kind = ToolKind.function ∧ t.function = none) ∨
  (t.kind = ToolKind.mcp ∧ t.mcp = none) ∨
  (t.kind = ToolKind.builtin ∧ t.builtin = none)

/-- The C6 counterexample input: a well-typed function tool whose schema
carries a list as its `type` value. -/
def c6cexSpec : ToolSpec :=
  { kind := ToolKind.function,
    function := some { name := "f", parameters := [("type", .arr [])] } }

/-- C6 (counterexample): the claim's totality part fails as stated.  The
mapper is not total over well-typed ToolSpec lists: a function tool whose
`parameters` holds `(type : [])` is well-typed for `dict[str, Any]`, yet
`result["type"] not in valid_types` (source line 68) hashes the unhashable
list and raises `TypeError`, which propagates out of `to_openai_tools`
(modelled as `.error .typeErr`). -/
theorem claim_C6_counterexample :
    to_openai_tools [c6cexSpec] false = .error .typeErr := rfl

/-- C6 (amended): any tool whose variant payload is `None` for its declared
kind is skipped without raising — it contributes no output entry and the
mapper's result on the remaining tools is unchanged.  (The unamended
totality part is refuted by the counterexample: the mapper propagates the
normalizer's `TypeError` on unhashable `type` values.) -/
theorem claim_C6 (supports : Bool) (t : ToolSpec) (rest : List ToolSpec)
    (hbad : badPayload t) :
    toolEntry supports t = .ok none ∧
    to_openai_tools (t :: rest) supports = to_openai_tools rest supports := by
  have he : toolEntry supports t = .ok none := by
    rcases hbad with ⟨hk, hp⟩ | ⟨hk, hp⟩ | ⟨hk, hp⟩
    · simp [toolEntry, hk, hp]
    · simp [toolEntry, hk, hp]
    · simp [toolEntry, hk, hp]
  refine ⟨he, ?_⟩
  simp only [to_openai_tools, he, ebind_ok]
  cases hrest : to_openai_tools rest supports with
  | error e => rfl
  | ok out => rfl

def c6wSpec : ToolSpec := { kind := ToolKind.mcp }

theorem claim_C6_witness :
    toolEntry false c6wSpec = .ok none ∧
    to_openai_tools [c6wSpec] false = to_openai_tools [] false :=
  claim_C6 false c6wSpec [] (Or.inr (Or.inl ⟨rfl, rfl⟩))

/-- C7: the mapper processes tools in input order, emitting at most one
declaration per tool: the output is the ordered concatenation of per-tool
contributions (each empty or a singleton), so relative input order is
preserved and the output is never longer than the input. -/
theorem claim_C7 (tools : List ToolSpec) (supports : Bool)
    (out : List JsonValue) (h : to_openai_tools tools supports = .ok out) :
    ∃ parts : List (List JsonValue),
      List.Forall₂ (fun t q => ∃ e, toolEntry supports t = .ok e ∧ q = e.toList)
        tools parts ∧
      out = parts.flatten ∧ out.length ≤ tools.length := by
  induction tools generalizing out with
  | nil =>
      simp only [to_openai_tools] at h
      cases h
      exact ⟨[], List.Forall₂.nil, by simp, by simp⟩
  | cons t rest ih =>
      simp only [to_openai_tools] at h
      cases he : toolEntry supports t with
      | error e => rw [he, ebind_err] at h; exact absurd h (by simp)
      | ok e =>
          rw [he, ebind_ok] at h
          cases hrest : to_openai_tools rest supports with
          | error e2 => rw [hrest, ebind_err] at h; exact absurd h (by simp)
          | ok out2 =>
              rw [hrest, ebind_ok] at h
              obtain ⟨parts, hf, hj, hl⟩ := ih out2 hrest
              cases e with
              | none =>
                  dsimp only at h
                  cases h
                  refine ⟨[] :: parts, List.Forall₂.cons ⟨none, he, rfl⟩ hf,
                    by simp [hj], ?_⟩
                  simp only [List.length_cons]
                  omega
              | some d =>
                  dsimp only at h
                  cases h
                  refine ⟨[d] :: parts, List.Forall₂.cons ⟨some d, he, rfl⟩ hf,
                    by simp [hj], ?_⟩
                  simp only [List.length_cons]
                  omega

def c7wSpec : ToolSpec :=
  { kind := ToolKind.builtin, builtin := some { type := "search" } }

theorem claim_C7_witness :
    ∃ parts : List (List JsonValue),
      List.Forall₂ (fun t q => ∃ e, toolEntry false t = .ok e ∧ q = e.toList)
        [c7wSpec] parts ∧
      [JsonValue.obj [("type", JsonValue.str "search")]] = parts.flatten ∧
      [JsonValue.obj [("type", JsonValue.str "search")]].length ≤
        [c7wSpec].length :=
  claim_C7 [c7wSpec] false [JsonValue.obj [("type", JsonValue.str "search")]] rfl

/-- C8: the (operationally modelled) schema normalizer never mutates its
input: every dict cell that existed before the call — in particular every
mapping reachable from the input value — is unchanged in the final heap;
all additions and coercions go to freshly allocated cells. -/
theorem claim_C8 (n : Nat) (h : Heap) (v : HVal) (a : Nat)
    (ha : a < h.cells.length) :
    ((normalizeH n h v).1).cells[a]? = h.cells[a]? :=
  (normalizeH_heapLe n h v).2 a ha

theorem claim_C8_witness :
    ((normalizeH 1 ⟨[[("type", HVal.str "file")]]⟩ (.ref 0)).1).cells[0]? =
      (⟨[[("type", HVal.str "file")]]⟩ : Heap).cells[0]? :=
  claim_C8 1 ⟨[[("type", HVal.str "file")]]⟩ (.ref 0) 0 (by decide)

/-- The variant payload matching a spec's declared kind. -/
def kindPayload (t : ToolSpec) :
    Option (Sum FunctionToolSpec (Sum MCPToolSpec BuiltinToolSpec)) :=
  match t.kind with
  | .function => t.function.map Sum.inl
  | .mcp => t.mcp.map (fun m => Sum.inr (Sum.inl m))
  | .builtin => t.builtin.map (fun b => Sum.inr (Sum.inr b))

/-- C9 (implicit): the mapper's output for a tool depends only on its kind
and the payload matching that kind: two specs with equal kind and equal
kind-matching payload map identically, whatever the other variant payload
slots hold. -/
theorem claim_C9 (t1 t2 : ToolSpec) (supports : Bool)
    (hk : t1.kind = t2.kind) (hp : kindPayload t1 = kindPayload t2) :
    toolEntry supports t1 = toolEntry supports t2 := by
  cases hk1 : t1.kind with
  | function =>
      have hk2 : t2.kind = ToolKind.function := by rw [← hk, hk1]
      unfold kindPayload at hp
      rw [hk1, hk2] at hp
      dsimp only at hp
      have hfun : t1.function = t2.function := by
        cases hf1 : t1.function <;> cases hf2 : t2.function <;>
          rw [hf1, hf2] at hp <;> simp_all
      simp [toolEntry, hk1, hk2, hfun]
  | mcp =>
      have hk2 : t2.kind = ToolKind.mcp := by rw [← hk, hk1]
      unfold kindPayload at hp
      rw [hk1, hk2] at hp
      dsimp only at hp
      have hm : t1.mcp = t2.mcp := by
        cases hf1 : t1.mcp <;> cases hf2 : t2.mcp <;>
          rw [hf1, hf2] at hp <;> simp_all
      simp [toolEntry, hk1, hk2, hm]
  | builtin =>
      have hk2 : t2.kind = ToolKind.builtin := by rw [← hk, hk1]
      unfold kindPayload at hp
      rw [hk1, hk2] at hp
      dsimp only at hp
      have hb : t1.builtin = t2.builtin := by
        cases hf1 : t1.builtin <;> cases hf2 : t2.builtin <;>
          rw [hf1, hf2] at hp <;> simp_all
      simp [toolEntry, hk1, hk2, hb]

def c9aSpec : ToolSpec :=
  { kind := ToolKind.mcp,
    mcp := some { server_id := "srv1", name := "lookup" },
    function := some { name := "extra" },
    builtin := some { type := "extra" } }

def c9bSpec : ToolSpec :=
  { kind := ToolKind.mcp, mcp := some { server_id := "srv1", name := "lookup" } }

theorem claim_C9_witness :
    toolEntry false c9aSpec = toolEntry false c9bSpec :=
  claim_C9 c9aSpec c9bSpec false rfl rfl

/-- C5: `normalize_tool_call` builds a `ToolCall` such that: when the raw
name decodes under the mcp pattern the call's name is the decoded tool name
and `mcp_server_id` is the decoded server id; otherwise the name passes
through verbatim with `mcp_server_id` absent; a missing `id` key defaults
to `""` and a missing `arguments` key defaults to the literal two-character
string holding an empty JSON object. -/
theorem claim_C5 (raw : Obj) (nm : String) (tc : ToolCall)
    (hn : getKey raw "name" = some (.str nm))
    (h : normalize_tool_call raw = some tc) :
    (∀ s, (decode_maybe_mcp nm).1 = some s →
        tc.name = (decode_maybe_mcp nm).2 ∧ tc.mcp_server_id = some s) ∧
    ((decode_maybe_mcp nm).1 = none →
        tc.name = nm ∧ tc.mcp_server_id = none) ∧
    (getKey raw "id" = none → tc.id = "") ∧
    (getKey raw "arguments" = none → tc.arguments_json = some "\x7b\x7d") := by
  unfold normalize_tool_call at h
  rw [hn] at h
  dsimp only [Option.getD] at h
  cases hid : idField raw with
  | none => rw [hid] at h; exact absurd h (by simp)
  | some idv =>
      rw [hid] at h
      dsimp only at h
      cases harg : argsField raw with
      | none => rw [harg] at h; exact absurd h (by simp)
      | some argv =>
          rw [harg] at h
          dsimp only at h
          have htc : tc = ToolCall.mk idv
              (if truthyOpt (decode_maybe_mcp nm).1 then
                (decode_maybe_mcp nm).2 else nm)
              argv (decode_maybe_mcp nm).1 :=
            (Option.some.inj h).symm
          subst htc
          refine ⟨?_, ?_, ?_, ?_⟩
          · intro s hsv
            have hpair : decode_maybe_mcp nm = (some s, (decode_maybe_mcp nm).2) := by
              rw [← hsv]
            have hs : s ≠ "" := decode_server_ne hpair
            constructor
            · show (if truthyOpt (decode_maybe_mcp nm).1 then
                  (decode_maybe_mcp nm).2 else nm) = (decode_maybe_mcp nm).2
              rw [hsv]
              simp [truthyOpt, hs]
            · exact hsv
          · intro hnone
            constructor
            · show (if truthyOpt (decode_maybe_mcp nm).1 then
                  (decode_maybe_mcp nm).2 else nm) = nm
              rw [hnone]
              simp [truthyOpt]
            · exact hnone
          · intro hidn
            show idv = ""
            unfold idField at hid
            rw [hidn] at hid
            exact (Option.some.inj hid).symm
          · intro hargn
            show argv = some "\x7b\x7d"
            unfold argsField at harg
            rw [hargn] at harg
            exact (Option.some.inj harg).symm

def c5wRaw : Obj := [("name", JsonValue.str "mcp::srv1::lookup")]

theorem claim_C5_witness :
    (∀ s, (decode_maybe_mcp "mcp::srv1::lookup").1 = some s →
        (ToolCall.mk "" "lookup" (some "\x7b\x7d") (some "srv1")).name =
          (decode_maybe_mcp "mcp::srv1::lookup").2 ∧
        (ToolCall.mk "" "lookup" (some "\x7b\x7d") (some "srv1")).mcp_server_id =
          some s) ∧
    ((decode_maybe_mcp "mcp::srv1::lookup").1 = none →
        (ToolCall.mk "" "lookup" (some "\x7b\x7d") (some "srv1")).name =
          "mcp::srv1::lookup" ∧
        (ToolCall.mk "" "lookup" (some "\x7b\x7d") (some "srv1")).mcp_server_id =
          none) ∧
    (getKey c5wRaw "id" = none →
        (ToolCall.mk "" "lookup" (some "\x7b\x7d") (some "srv1")).id = "") ∧
    (getKey c5wRaw "arguments" = none →
        (ToolCall.mk "" "lookup" (some "\x7b\x7d") (some "srv1")).arguments_json =
          some "\x7b\x7d") :=
  claim_C5 c5wRaw "mcp::srv1::lookup"
    (ToolCall.mk "" "lookup" (some "\x7b\x7d") (some "srv1")) rfl rfl

/-- C10 (implicit): a present-but-null field differs from a missing field:
an `id` key mapped to `None` (or any falsy value) still yields `id = ""`,
while an `arguments` key mapped to `None` yields `arguments_json = None` —
the empty-object default applies only when the `arguments` key is absent. -/
theorem claim_C10 (raw : Obj) (tc : ToolCall)
    (h : normalize_tool_call raw = some tc) :
    (∀ v, getKey raw "id" = some v → jsonTruthy v = false → tc.id = "") ∧
    (getKey raw "arguments" = some .null → tc.arguments_json = none) := by
  unfold normalize_tool_call at h
  cases hnv : (getKey raw "name").getD (.str "") with
  | str nm =>
      rw [hnv] at h
      dsimp only at h
      cases hid : idField raw with
      | none => rw [hid] at h; exact absurd h (by simp)
      | some idv =>
          rw [hid] at h
          dsimp only at h
          cases harg : argsField raw with
          | none => rw [harg] at h; exact absurd h (by simp)
          | some argv =>
              rw [harg] at h
              dsimp only at h
              have htc : tc = ToolCall.mk idv
                  (if truthyOpt (decode_maybe_mcp nm).1 then
                    (decode_maybe_mcp nm).2 else nm)
                  argv (decode_maybe_mcp nm).1 :=
                (Option.some.inj h).symm
              subst htc
              constructor
              · intro v hv htr
                show idv = ""
                unfold idField at hid
                rw [hv] at hid
                dsimp only at hid
                rw [if_neg (by simp [htr])] at hid
                exact (Option.some.inj hid).symm
              · intro hnullv
                show argv = none
                unfold argsField at harg
                rw [hnullv] at harg
                exact (Option.some.inj harg).symm
  | num k => rw [hnv] at h; exact absurd h (by simp)
  | bool b => rw [hnv] at h; exact absurd h (by simp)
  | null => rw [hnv] at h; exact absurd h (by simp)
  | arr es => rw [hnv] at h; exact absurd h (by simp)
  | obj fs => rw [hnv] at h; exact absurd h (by simp)

def c10wRaw : Obj :=
  [("name", JsonValue.str "search"), ("id", JsonValue.null),
   ("arguments", JsonValue.null)]

theorem claim_C10_witness :
    (∀ v, getKey c10wRaw "id" = some v → jsonTruthy v = false →
        (ToolCall.mk "" "search" none none).id = "") ∧
    (getKey c10wRaw "arguments" = some .null →
        (ToolCall.mk "" "search" none none).arguments_json = none) :=
  claim_C10 c10wRaw (ToolCall.mk "" "search" none none) rfl
